import Mathlib

/-!
Verification development for the `snug` context-window packing library.

The definitions below are a shallow embedding of the TypeScript sources:

* `Snug.enforceConstraints`     — src/pack/constraints.ts (`enforceConstraints`)
* `Snug.applyPlacement`         — src/pack/placement.ts (`applyPlacement`)
* `Snug.groupIntoTurns`         — src/index.ts (`ContextOptimizer.groupIntoTurns`)
* `Snug.collectAndScore`/`pack` — src/index.ts (`ContextOptimizer.collectAndScore`/`pack`)
* `Snug.estimateTokens`         — src/measure/heuristic.ts (`estimateTokens`)

JavaScript numbers are modelled by `Int`/`Nat` where the code only does
integer arithmetic (token counts, budgets, indices) and by `ℚ` where the
code divides (the token heuristic, recency decay factors).  A score
(`number`, with `Infinity` for required items) is modelled by `WithTop ℚ`.
Mutation is modelled by explicit state passing (`EnfState` for the
constraint-enforcement loop); the `while (changed)` loop is modelled with
explicit fuel, and termination of the source loop is the statement that a
computable fuel bound reaches the fixed point.
-/

namespace Snug

/-- Priority tiers of a context item (`'required' | 'high' | 'medium' | 'low'`). -/
inductive Priority where
  | required
  | high
  | medium
  | low
deriving DecidableEq, Repr

/-- Explicit position hint on an item (`'beginning' | 'end'`); the TypeScript
`'end'` literal is rendered `ending` because `end` is a Lean keyword. -/
inductive Position where
  | beginning
  | ending
deriving DecidableEq, Repr

/-- Placement zone tag assigned by the placement engine
(`'beginning' | 'middle' | 'end'`). -/
inductive Placement where
  | beginning
  | middle
  | ending
deriving DecidableEq, Repr

/-- Drop strategy of a source (`'oldest' | 'none'`); the TypeScript `'none'`
literal is rendered `noDrop` to avoid clashing with `Option.none`. -/
inductive DropStrategy where
  | oldest
  | noDrop
deriving DecidableEq, Repr

/-- The uninterpreted `value` payload carried by an item: either the raw
(string or JSON-stringified) payload, or — for a grouped turn — the ordered
array of its members' payloads. -/
inductive Value where
  | str : String → Value
  | arr : List Value → Value

/-- A JavaScript `number` used as a score: a finite rational or `Infinity`
(`⊤`).  Required items carry score `⊤`. -/
abbrev Score := WithTop ℚ

/-- The atomic unit of content competing for budget (`ContextItem`). -/
structure ContextItem where
  id : String
  source : String
  content : String
  value : Value
  tokens : Nat
  priority : Priority
  score : Score
  index : Nat
  position : Option Position
  role : Option String

/-- A dropped-item record (`DroppedItem`): identity, measurements and the
reason the item was excluded. -/
structure DroppedItem where
  source : String
  id : String
  tokens : Nat
  score : Score
  reason : String

/-- A dependency constraint: if `ifIncluded` is included then `thenRequire`
must be too (src/pack/constraints.ts, `Constraint`). -/
structure Constraint where
  ifIncluded : String
  thenRequire : String
deriving DecidableEq, Repr

/-- Sum of the token counts of a list of items, as the JavaScript
`reduce((sum, i) => sum + i.tokens, 0)`. -/
def sumTokens (l : List ContextItem) : Int :=
  l.foldl (fun a i => a + (i.tokens : Int)) 0

/-- Membership-preserving insertion used to model `Set.add`: appends the
element unless it is already present. -/
def setInsert (l : List String) (x : String) : List String :=
  if x ∈ l then l else l ++ [x]

/-- Builds the insertion-ordered list of distinct elements of `xs`, as
`new Set(xs)` does. -/
def mkSet (xs : List String) : List String :=
  xs.foldl setInsert []

/-- Removal from a set modelled as a list (`Set.delete`): drops the first
(sole) occurrence of `x`. -/
def removeStr : List String → String → List String
  | [], _ => []
  | y :: l, x => if y = x then l else y :: removeStr l x

/-- Lookup in an association list modelling a JavaScript `Map` keyed by id. -/
def mapGet : List (String × ContextItem) → String → Option ContextItem
  | [], _ => none
  | p :: m, k => if p.1 = k then some p.2 else mapGet m k

/-- Key removal from the association list modelling `Map.delete`. -/
def mapDelete : List (String × ContextItem) → String → List (String × ContextItem)
  | [], _ => []
  | p :: m, k => if p.1 = k then mapDelete m k else p :: mapDelete m k

/-- Insertion into the association list with `Map.set` overwrite semantics. -/
def mapInsert (m : List (String × ContextItem)) (k : String) (v : ContextItem) :
    List (String × ContextItem) :=
  if m.any (fun p => p.1 = k) then m.map (fun p => if p.1 = k then (k, v) else p)
  else m ++ [(k, v)]

/-- Builds the id-keyed `Map` over the available pool, as
`new Map(available.map(i => [i.id, i]))` (later duplicates overwrite). -/
def buildMap (avail : List ContextItem) : List (String × ContextItem) :=
  avail.foldl (fun m i => mapInsert m i.id i) []

/-- Models `included.findIndex(i => i.id === k)` followed by
`included.splice(idx, 1)`: returns the first item whose id is `k` together
with the list with that occurrence removed. -/
def findRemove (k : String) : List ContextItem → Option (ContextItem × List ContextItem)
  | [] => none
  | i :: l =>
      if i.id = k then some (i, l)
      else (findRemove k l).map (fun p => (p.1, i :: p.2))

/-- The mutable state of `enforceConstraints` between loop iterations:
the `included` array, the `includedIds` set, the `availableMap`, the
`added`/`removed` accumulators, the `failedDeps` set, the running token
total and the `changed` flag. -/
structure EnfState where
  included : List ContextItem
  includedIds : List String
  availableMap : List (String × ContextItem)
  added : List ContextItem
  removed : List ContextItem
  failedDeps : List String
  currentTokens : Int
  changed : Bool

/-- One iteration of the `for (const constraint of constraints)` body of
`enforceConstraints` (src/pack/constraints.ts lines 68–112). -/
def processConstraint (budget : Int) (s : EnfState) (c : Constraint) : EnfState :=
  if c.ifIncluded ∉ s.includedIds then s
  else if c.thenRequire ∈ s.includedIds then s
  else if c.thenRequire ∈ s.failedDeps then
    -- Already failed — remove trigger if still present
    match findRemove c.ifIncluded s.included with
    | some (trigger, rest) =>
        if trigger.priority ≠ Priority.required then
          { s with
            included := rest
            includedIds := removeStr s.includedIds trigger.id
            currentTokens := s.currentTokens - (trigger.tokens : Int)
            removed := s.removed ++ [trigger]
            changed := true }
        else s
    | none => s
  else
    match mapGet s.availableMap c.thenRequire with
    | none =>
        -- Dependency doesn't exist in available pool — can't satisfy
        { s with failedDeps := s.failedDeps ++ [c.thenRequire], changed := true }
    | some dep =>
        if s.currentTokens + (dep.tokens : Int) ≤ budget then
          -- Dependency fits — add it
          { s with
            included := s.included ++ [dep]
            includedIds := setInsert s.includedIds dep.id
            availableMap := mapDelete s.availableMap dep.id
            currentTokens := s.currentTokens + (dep.tokens : Int)
            added := s.added ++ [dep]
            changed := true }
        else
          -- Dependency doesn't fit — remove the trigger instead
          match findRemove c.ifIncluded s.included with
          | some (trigger, rest) =>
              if trigger.priority ≠ Priority.required then
                { s with
                  included := rest
                  includedIds := removeStr s.includedIds trigger.id
                  currentTokens := s.currentTokens - (trigger.tokens : Int)
                  removed := s.removed ++ [trigger]
                  failedDeps := s.failedDeps ++ [c.thenRequire]
                  changed := true }
              else
                { s with failedDeps := s.failedDeps ++ [c.thenRequire], changed := true }
          | none => { s with failedDeps := s.failedDeps ++ [c.thenRequire], changed := true }

/-- One full pass of the `for` loop over all constraints. -/
def enfPass (budget : Int) (constraints : List Constraint) (s : EnfState) : EnfState :=
  constraints.foldl (processConstraint budget) s

/-- The `while (changed)` fixed-point loop, with explicit fuel.  Each fuelled
step clears `changed` and runs one full pass, exactly as the source does. -/
def enfLoop (budget : Int) (constraints : List Constraint) : Nat → EnfState → EnfState
  | 0, s => s
  | n + 1, s =>
      if s.changed then
        enfLoop budget constraints n (enfPass budget constraints { s with changed := false })
      else s

/-- Initial state of `enforceConstraints` (lines 56–63 of the source). -/
def initEnfState (included available : List ContextItem) : EnfState :=
  { included := included
    includedIds := mkSet (included.map (·.id))
    availableMap := buildMap available
    added := []
    removed := []
    failedDeps := []
    currentTokens := sumTokens included
    changed := true }

/-- Fuel that provably reaches the fixed point of the `while (changed)` loop:
each pass that reports a change strictly grows `removed ++ added ++
failedDeps`, which is bounded by this quantity. -/
def enforceFuel (included available : List ContextItem) (constraints : List Constraint) : Nat :=
  included.length + 2 * available.length + constraints.length + 1

/-- Result record of `enforceConstraints`. -/
structure EnfResult where
  included : List ContextItem
  added : List ContextItem
  removed : List ContextItem

/-- Shallow embedding of `enforceConstraints` (src/pack/constraints.ts).
The mutated `included` array is the `included` field of the result. -/
def enforceConstraints (included available : List ContextItem)
    (constraints : List Constraint) (budget : Int) : EnfResult :=
  if constraints = [] then { included := included, added := [], removed := [] }
  else
    let s := enfLoop budget constraints (enforceFuel included available constraints)
      (initEnfState included available)
    { included := s.included, added := s.added, removed := s.removed }

/-- The placement-stage output record (`PackedItem`): identity, content,
measurements, plus the computed placement zone and the optional role. -/
structure PackedItem where
  id : String
  source : String
  content : String
  value : Value
  tokens : Nat
  score : Score
  placement : Placement
  role : Option String

/-- Conversion of a `ContextItem` to a `PackedItem` tagged with a placement
zone, as the `push` helper of `applyPlacement` builds it.  `role` is copied
verbatim: the source only sets the field when `item.role != null`, which is
exactly `Option` copying. -/
def toPacked (placement : Placement) (i : ContextItem) : PackedItem :=
  { id := i.id
    source := i.source
    content := i.content
    value := i.value
    tokens := i.tokens
    score := i.score
    placement := placement
    role := i.role }

/-- Stable insertion of `x` into `l` for a JavaScript comparator `cmp`:
`x` is placed before the first element `y` with `cmp x y < 0`, after all
earlier elements — the order a stable comparator sort produces. -/
def insertCmp (cmp : ContextItem → ContextItem → Int) (x : ContextItem) :
    List ContextItem → List ContextItem
  | [] => [x]
  | y :: l => if cmp x y < 0 then x :: y :: l else y :: insertCmp cmp x l

/-- Stable sort by a JavaScript comparator (`Array.prototype.sort` is
specified stable): elements are inserted left to right, each going after
every comparator-equal earlier element. -/
def sortCmp (cmp : ContextItem → ContextItem → Int) (l : List ContextItem) :
    List ContextItem :=
  l.foldl (fun acc x => insertCmp cmp x acc) []

/-- The comparator `(a, b) => a.index - b.index` (ascending index). -/
def cmpIndexAsc (a b : ContextItem) : Int :=
  (a.index : Int) - (b.index : Int)

/-- Sign-equivalent model of the comparator `(a, b) => b.score - a.score`
(descending score).  `Infinity - Infinity` is `NaN`, which a JavaScript sort
treats as `0`; the model returns `0` exactly when neither score is smaller. -/
def cmpScoreDesc (a b : ContextItem) : Int :=
  if b.score < a.score then -1 else if a.score < b.score then 1 else 0

/-- The four buckets the classification loop of `applyPlacement` fills. -/
structure PlaceBuckets where
  pinStart : List ContextItem
  pinEnd : List ContextItem
  query : List ContextItem
  float : List ContextItem

/-- One step of the `for (const item of items)` classification loop of
`applyPlacement` (placement.ts lines 21–27). -/
def classifyStep (b : PlaceBuckets) (i : ContextItem) : PlaceBuckets :=
  if i.source = "query" then { b with query := b.query ++ [i] }
  else if i.position = some Position.beginning then { b with pinStart := b.pinStart ++ [i] }
  else if i.position = some Position.ending then { b with pinEnd := b.pinEnd ++ [i] }
  else { b with float := b.float ++ [i] }

/-- The classification loop of `applyPlacement`. -/
def classifyItems (items : List ContextItem) : PlaceBuckets :=
  items.foldl classifyStep { pinStart := [], pinEnd := [], query := [], float := [] }

/-- Alternating split of a list by rank: the first component collects the
even-indexed elements, the second the odd-indexed ones (placement.ts lines
38–44). -/
def altSplit : List ContextItem → List ContextItem × List ContextItem
  | [] => ([], [])
  | x :: l => ((altSplit l).2.cons x, (altSplit l).1)

/-- The `push` helper of `applyPlacement`: appends each item of `arr`,
tagged with `placement`, to the accumulated result. -/
def pushGroup (acc : List PackedItem) (arr : List ContextItem) (placement : Placement) :
    List PackedItem :=
  arr.foldl (fun r i => r ++ [toPacked placement i]) acc

/-- Shallow embedding of `applyPlacement` (src/pack/placement.ts): classify,
stable-sort the pinned groups by index and the floaters by descending score,
alternate the floaters into a lead-in group and a reversed middle group, and
emit pinned-beginning, lead-in, middle, pinned-end, query. -/
def applyPlacement (items : List ContextItem) : List PackedItem :=
  let b := classifyItems items
  let pinStart := sortCmp cmpIndexAsc b.pinStart
  let pinEnd := sortCmp cmpIndexAsc b.pinEnd
  let float := sortCmp cmpScoreDesc b.float
  let floatBeginning := (altSplit float).1
  let floatMiddle := (altSplit float).2.reverse
  pushGroup (pushGroup (pushGroup (pushGroup (pushGroup [] pinStart Placement.beginning)
    floatBeginning Placement.beginning) floatMiddle Placement.middle)
    pinEnd Placement.ending) b.query Placement.ending

/-- Caller options of a registered source (`AddOptions`).  `requires` is the
entry list of the declared constraint record (`Object.entries` order);
`scorer` is the optional per-source relevance scorer. -/
structure AddOptions where
  priority : Priority
  position : Option Position
  keepLast : Option Nat
  dropStrategy : Option DropStrategy
  scorer : Option (ContextItem → String → Score)
  requires : List (String × String)

/-- A named registration (`ContextSource`). -/
structure ContextSource where
  name : String
  items : List ContextItem
  options : AddOptions

/-- The optimizer configuration fields `pack` reads: the context window, the
optional output reservation and the tokenizer's `count` capability. -/
structure OptimizerConfig where
  contextWindow : Int
  reserveOutput : Option Int
  count : String → Nat

/-- Splits a flat message list into turn groups: a new turn starts at each
`role: 'user'` message once the current turn is nonempty (index.ts lines
211–223). -/
def splitTurns (items : List ContextItem) : List (List ContextItem) :=
  let p := items.foldl
    (fun (acc : List (List ContextItem) × List ContextItem) item =>
      if item.role = some "user" ∧ ¬ acc.2.isEmpty then (acc.1 ++ [acc.2], [item])
      else (acc.1, acc.2 ++ [item]))
    ([], [])
  if ¬ p.2.isEmpty then p.1 ++ [p.2] else p.1

/-- Builds the single `ContextItem` representing one turn group (index.ts
lines 226–243): summed tokens, newline-joined content, the ordered array of
member payloads as `value`, and no role. -/
def mkTurn (source : String) (options : AddOptions) (turnIndex : Nat)
    (turnItems : List ContextItem) : ContextItem :=
  { id := source ++ "_turn_" ++ toString turnIndex
    source := source
    content := String.intercalate "\n" (turnItems.map (·.content))
    value := Value.arr (turnItems.map (·.value))
    tokens := (turnItems.map (·.tokens)).sum
    priority := options.priority
    score := (0 : ℚ)
    index := turnIndex
    position := options.position
    role := none }

/-- Shallow embedding of `ContextOptimizer.groupIntoTurns` (src/index.ts):
a no-op when no item carries a role, otherwise one item per turn group. -/
def groupIntoTurns (source : String) (items : List ContextItem)
    (options : AddOptions) : List ContextItem :=
  if items.any (fun i => i.role.isSome) then
    ((splitTurns items).enum.map fun p => mkTurn source options p.1 p.2)
  else items

/-- Structural characters counted by the token heuristic
(`{ } [ ] ( ) < > ; = : , " '`), compared by character code as the source
does with `charCodeAt` (the counted characters are all ASCII, where
character codes and UTF-16 code units agree). -/
def isStructural (c : Char) : Bool :=
  let n := c.toNat
  n == 123 || n == 125 || n == 91 || n == 93 || n == 40 || n == 41 ||
  n == 60 || n == 62 || n == 59 || n == 61 || n == 58 || n == 44 ||
  n == 34 || n == 39

/-- Shallow embedding of `estimateTokens` (src/measure/heuristic.ts), with
the JavaScript floating-point arithmetic modelled by exact rationals:
`ceil(len / max(3, 4 - structural/len * 5))`, and `0` for the empty string
(the `!text` falsiness guard). -/
def estimateTokens (text : String) : Nat :=
  if text = "" then 0
  else
    let len := text.length
    let structural := (text.data.filter isStructural).length
    let charsPerToken : ℚ := max 3 (4 - (structural : ℚ) / (len : ℚ) * 5)
    (Int.ceil ((len : ℚ) / charsPerToken)).toNat

/-- Modelled from the spec: §4.1 Priority Scorer — the implementation file
(src/score/priority.ts) is not under src/, only its callers and tests are.
`required ↦ Infinity`; the remaining tiers map to strictly decreasing
positive numbers. -/
def scorePriority : Priority → Score
  | Priority.required => ⊤
  | Priority.high => ((100 : ℚ) : Score)
  | Priority.medium => ((50 : ℚ) : Score)
  | Priority.low => ((10 : ℚ) : Score)

/-- Multiplication of a score by a finite decay factor (`Infinity * f` stays
`Infinity` for the positive factors used here). -/
def mulScore (s : Score) (f : ℚ) : Score :=
  WithTop.map (fun q => q * f) s

/-- Modelled from the spec: §4.2 Recency Biaser — the implementation file
(src/score/recency.ts) is not under src/.  Non-required items' scores are
rescaled linearly from 10% (oldest, first) to 100% (newest, last); a single
item and required items are left unchanged. -/
def applyRecencyBias (items : List ContextItem) : List ContextItem :=
  let n := items.length
  if n ≤ 1 then items
  else items.enum.map fun p =>
    if p.2.priority = Priority.required then p.2
    else { p.2 with
           score := mulScore p.2.score
             ((1 : ℚ) / 10 + (9 : ℚ) / 10 * (p.1 : ℚ) / ((n : ℚ) - 1)) }

/-- Result record of the greedy packer. -/
structure GreedyResult where
  included : List ContextItem
  dropped : List DroppedItem

/-- The dropped-item record the greedy packer emits for a rejected item. -/
def mkBudgetDropped (i : ContextItem) : DroppedItem :=
  { source := i.source, id := i.id, tokens := i.tokens, score := i.score
    reason := "budget exhausted" }

/-- The comparator of the greedy packer: descending by score and, for exact
score ties, ascending by token count. -/
def cmpPack (a b : ContextItem) : Int :=
  if b.score < a.score then -1
  else if a.score < b.score then 1
  else (a.tokens : Int) - (b.tokens : Int)

/-- One step of the greedy packer's single scan over the sorted non-required
items: include the item when it fits in the remaining budget (decrementing
it), otherwise record it as dropped with reason `"budget exhausted"`. -/
def greedyStep (acc : List ContextItem × List DroppedItem × Int) (i : ContextItem) :
    List ContextItem × List DroppedItem × Int :=
  if (i.tokens : Int) ≤ acc.2.2 then (acc.1 ++ [i], acc.2.1, acc.2.2 - (i.tokens : Int))
  else (acc.1, acc.2.1 ++ [mkBudgetDropped i], acc.2.2)

/-- Modelled from the spec: §4.4 Greedy Packer — the implementation file
(src/pack/greedy.ts) is not under src/.  All required items are included
unconditionally; the remaining budget (floored at zero) is spent on the
non-required items sorted by descending score then ascending tokens, in a
single scan that continues past items that do not fit; every rejected item
is recorded as dropped with reason `"budget exhausted"`. -/
def greedyPack (items : List ContextItem) (budget : Int) : GreedyResult :=
  let required := items.filter (fun i => i.priority = Priority.required)
  let optional := items.filter (fun i => ¬ i.priority = Priority.required)
  let rem0 : Int := max 0 (budget - sumTokens required)
  let scan := (sortCmp cmpPack optional).foldl greedyStep ([], [], rem0)
  { included := required ++ scan.1, dropped := scan.2.1 }

/-- JavaScript truthiness of the optional query string: `undefined` and the
empty string are falsy.  Both query-dependent code paths of `pack` and
`collectAndScore` test the query this way. -/
def truthy : Option String → Option String
  | none => none
  | some s => if s = "" then none else some s

/-- Scoring of one (cloned) source, from `collectAndScore` (src/index.ts
lines 277–308): `dropStrategy: 'none'` promotes all items to required, base
scores come from the priority tier, `dropStrategy: 'oldest'` applies the
recency bias, and a custom scorer (with a truthy query) overrides the score
of every non-required item.  The stored source items are cloned before any
of these mutations, so the registration itself is never written to. -/
def scoreSource (src : ContextSource) (qt : Option String) : List ContextItem :=
  let cloned := src.items
  let cloned :=
    if src.options.dropStrategy = some DropStrategy.noDrop then
      cloned.map (fun i => { i with priority := Priority.required })
    else cloned
  let cloned := cloned.map (fun i => { i with score := scorePriority i.priority })
  let cloned :=
    if src.options.dropStrategy = some DropStrategy.oldest then applyRecencyBias cloned
    else cloned
  match src.options.scorer, qt with
  | some f, some q =>
      cloned.map (fun i =>
        if i.priority = Priority.required then i else { i with score := f i q })
  | _, _ => cloned

/-- Shallow embedding of `ContextOptimizer.collectAndScore`: concatenates
the cloned-and-scored items of every registered source in registration
order. -/
def collectAndScore (sources : List ContextSource) (query : Option String) :
    List ContextItem :=
  sources.foldl (fun acc src => acc ++ scoreSource src (truthy query)) []

/-- The synthetic required query item `pack` appends for a truthy query. -/
def queryItem (count : String → Nat) (q : String) : ContextItem :=
  { id := "query_0"
    source := "query"
    content := q
    value := Value.str q
    tokens := count q
    priority := Priority.required
    score := ⊤
    index := 0
    position := some Position.ending
    role := none }

/-- The default output reservation (`DEFAULT_RESERVE_OUTPUT`). -/
def DEFAULT_RESERVE_OUTPUT : Int := 4096

/-- The budget of a `pack` call:
`contextWindow - (reserveOutput ?? DEFAULT_RESERVE_OUTPUT)`. -/
def packBudget (cfg : OptimizerConfig) : Int :=
  cfg.contextWindow - cfg.reserveOutput.getD DEFAULT_RESERVE_OUTPUT

/-- All items entering a `pack` call: the cloned-and-scored source items
plus, for a truthy query, the synthetic query item. -/
def packAllItems (cfg : OptimizerConfig) (sources : List ContextSource)
    (query : Option String) : List ContextItem :=
  match truthy query with
  | some q => collectAndScore sources query ++ [queryItem cfg.count q]
  | none => collectAndScore sources query

/-- Pools the per-source `requires` declarations into the global constraint
list (`collectConstraints`). -/
def collectConstraints (sources : List ContextSource) : List Constraint :=
  sources.foldl
    (fun acc src => acc ++ src.options.requires.map
      (fun p => { ifIncluded := p.1, thenRequire := p.2 })) []

/-- The greedy-packing stage of `pack`. -/
def packGreedy (cfg : OptimizerConfig) (sources : List ContextSource)
    (query : Option String) : GreedyResult :=
  greedyPack (packAllItems cfg sources query) (packBudget cfg)

/-- The available pool handed to constraint enforcement:
`dropped.map(d => allItems.find(i => i.id === d.id)!).filter(Boolean)`. -/
def packAvailable (cfg : OptimizerConfig) (sources : List ContextSource)
    (query : Option String) : List ContextItem :=
  (packGreedy cfg sources query).dropped.filterMap
    (fun d => (packAllItems cfg sources query).find? (fun i => i.id == d.id))

/-- The constraint-enforcement stage of `pack`. -/
def packEnforced (cfg : OptimizerConfig) (sources : List ContextSource)
    (query : Option String) : EnfResult :=
  enforceConstraints (packGreedy cfg sources query).included
    (packAvailable cfg sources query) (collectConstraints sources) (packBudget cfg)

/-- The dropped-item record `pack` emits for a trigger removed by constraint
enforcement. -/
def mkConstraintDropped (i : ContextItem) : DroppedItem :=
  { source := i.source, id := i.id, tokens := i.tokens, score := i.score
    reason := "constraint dependency unavailable" }

/-- Result record of `pack` (`PackResult`), restricted to the pipeline
output: the placed items and the dropped list.  The stats/warnings fields
are reporting passes outside the core. -/
structure PackResult where
  items : List PackedItem
  dropped : List DroppedItem

/-- Shallow embedding of `ContextOptimizer.pack` (src/index.ts lines
73–129): collect and score, append the query item, greedy-pack, enforce
constraints, rebuild the dropped list, and place. -/
def pack (cfg : OptimizerConfig) (sources : List ContextSource)
    (query : Option String) : PackResult :=
  let g := packGreedy cfg sources query
  let e := packEnforced cfg sources query
  let addedIds := e.added.map (·.id)
  { items := applyPlacement e.included
    dropped := g.dropped.filter (fun d => ¬ d.id ∈ addedIds)
      ++ e.removed.map mkConstraintDropped }

/-- State-passing form of `pack`: the first component is the registered
sources map after the call.  `collectAndScore` clones every stored item
(`source.items.map(item => ({...item}))`, src/index.ts line 279) before the
scoring mutations, so the post-call map equals the pre-call map. -/
def packWithState (cfg : OptimizerConfig) (st : List ContextSource)
    (query : Option String) : List ContextSource × PackResult :=
  (st, pack cfg st query)

/-- Concrete non-required trigger item `a` (40 tokens). -/
def exA : ContextItem :=
  { id := "a", source := "t", content := "a", value := Value.str "a", tokens := 40,
    priority := Priority.high, score := ((100 : ℚ) : Score), index := 0,
    position := none, role := none }

/-- Concrete non-required dependency item `b` (40 tokens). -/
def exB : ContextItem :=
  { id := "b", source := "t", content := "b", value := Value.str "b", tokens := 40,
    priority := Priority.low, score := ((10 : ℚ) : Score), index := 1,
    position := none, role := none }

/-- Concrete non-required dependency item `c` (40 tokens). -/
def exC : ContextItem :=
  { id := "c", source := "t", content := "c", value := Value.str "c", tokens := 40,
    priority := Priority.low, score := ((10 : ℚ) : Score), index := 2,
    position := none, role := none }

/-- Concrete optimizer configuration for the pack-level witnesses. -/
def exCfg : OptimizerConfig :=
  { contextWindow := 1000, reserveOutput := some 0, count := fun s => s.length }

/-- Concrete options of a required source. -/
def exReqOpts : AddOptions :=
  { priority := Priority.required, position := some Position.beginning,
    keepLast := none, dropStrategy := none, scorer := none, requires := [] }

/-- Concrete required item as registered. -/
def exReq : ContextItem :=
  { id := "sys_0", source := "sys", content := "be good", value := Value.str "be good",
    tokens := 3, priority := Priority.required, score := 0, index := 0,
    position := some Position.beginning, role := none }

/-- The registered required item after per-call scoring (score `Infinity`). -/
def exReqScored : ContextItem :=
  { exReq with score := (⊤ : Score) }

/-- Concrete sources map with the single required source. -/
def exSources : List ContextSource :=
  [{ name := "sys", items := [exReq], options := exReqOpts }]

/-- Concrete options declaring a constraint on a dependency id that no
source provides. -/
def exTrigOpts : AddOptions :=
  { priority := Priority.high, position := none, keepLast := none,
    dropStrategy := none, scorer := none, requires := [("s_0", "nope")] }

/-- Concrete non-required trigger item whose dependency is missing. -/
def exTrig : ContextItem :=
  { id := "s_0", source := "s", content := "tool", value := Value.str "tool",
    tokens := 5, priority := Priority.high, score := 0, index := 0,
    position := none, role := none }

/-- Concrete sources map with the single trigger source. -/
def exSources2 : List ContextSource :=
  [{ name := "s", items := [exTrig], options := exTrigOpts }]

/-- Concrete options record used by the concrete turn-grouping inputs. -/
def exTurnOpts : AddOptions :=
  { priority := Priority.high, position := none, keepLast := none,
    dropStrategy := none, scorer := none, requires := [] }

/-- Concrete user message with content `"a"`. -/
def exMsgU : ContextItem :=
  { id := "h_0", source := "h", content := "a", value := Value.str "a", tokens := 1,
    priority := Priority.high, score := 0, index := 0, position := none,
    role := some "user" }

/-- Concrete assistant message with content `"b"`. -/
def exMsgA : ContextItem :=
  { id := "h_1", source := "h", content := "b", value := Value.str "b", tokens := 2,
    priority := Priority.high, score := 0, index := 1, position := none,
    role := some "assistant" }

/-- Concrete assistant message with content `"c"`. -/
def exMsgA2 : ContextItem :=
  { id := "h_2", source := "h", content := "c", value := Value.str "c", tokens := 3,
    priority := Priority.high, score := 0, index := 2, position := none,
    role := some "assistant" }

/-- Concrete role-less item. -/
def exPlain : ContextItem :=
  { id := "d_0", source := "d", content := "p", value := Value.str "p", tokens := 1,
    priority := Priority.medium, score := 0, index := 0, position := none,
    role := none }

/-- Bool classification predicate: the synthetic query bucket. -/
def queryP (i : ContextItem) : Bool := i.source = "query"

/-- Bool classification predicate: pinned at the beginning. -/
def pinStartP (i : ContextItem) : Bool :=
  ¬ i.source = "query" ∧ i.position = some Position.beginning

/-- Bool classification predicate: pinned at the end. -/
def pinEndP (i : ContextItem) : Bool :=
  ¬ i.source = "query" ∧ ¬ i.position = some Position.beginning ∧
    i.position = some Position.ending

/-- Bool classification predicate: floating (no position, not the query). -/
def floatP (i : ContextItem) : Bool :=
  ¬ i.source = "query" ∧ ¬ i.position = some Position.beginning ∧
    ¬ i.position = some Position.ending

/-- Weighted loop measure for `enforceConstraints`: every state change of a
pass (a removal, an addition pulling an item out of the available map, or a
fresh `failedDeps` mark) strictly decreases it. -/
def enfW (tr : List String) (s : EnfState) : Nat :=
  s.included.length + 2 * s.availableMap.length + (tr.length - s.failedDeps.length)

/-- Loop invariant for `enforceConstraints`: map entries are keyed by their
item's id, and `failedDeps` is a duplicate-free subset of the pooled
`thenRequire` ids `tr`. -/
def enfInv (tr : List String) (s : EnfState) : Prop :=
  (∀ p ∈ s.availableMap, p.2.id = p.1) ∧ s.failedDeps.Nodup ∧
    ∀ x ∈ s.failedDeps, x ∈ tr

/-! ### Helper lemmas -/

theorem string_length_pos_of_ne_empty (s : String) (h : s ≠ "") : 0 < s.length := by
  rcases s with ⟨l⟩
  cases l with
  | nil => exact absurd rfl h
  | cons a l => simp [String.length]

theorem findRemove_perm (k : String) (l : List ContextItem)
    (p : ContextItem × List ContextItem) (h : findRemove k l = some p) :
    l.Perm (p.1 :: p.2) := by
  induction l generalizing p with
  | nil => simp [findRemove] at h
  | cons i l ih =>
      rw [findRemove] at h
      by_cases hi : i.id = k
      · rw [if_pos hi] at h
        cases h
        exact List.Perm.refl _
      · rw [if_neg hi] at h
        cases hfr : findRemove k l with
        | none => rw [hfr] at h
                  simp at h
        | some q =>
            rw [hfr] at h
            simp at h
            rw [← h]
            exact ((ih q hfr).cons i).trans (List.Perm.swap q.1 i q.2)

theorem findRemove_length (k : String) (l : List ContextItem)
    (p : ContextItem × List ContextItem) (h : findRemove k l = some p) :
    p.2.length + 1 = l.length := by
  have := (findRemove_perm k l p h).length_eq
  simp at this
  omega

theorem mapGet_mem (m : List (String × ContextItem)) (k : String) (v : ContextItem)
    (h : mapGet m k = some v) : (k, v) ∈ m := by
  induction m with
  | nil => simp [mapGet] at h
  | cons p m ih =>
      rw [mapGet] at h
      by_cases hp : p.1 = k
      · rw [if_pos hp] at h
        cases h
        rw [← hp]
        exact List.mem_cons_self _ _
      · rw [if_neg hp] at h
        exact List.mem_cons_of_mem p (ih h)

theorem mapDelete_sub (m : List (String × ContextItem)) (k : String)
    (p : String × ContextItem) (h : p ∈ mapDelete m k) : p ∈ m := by
  induction m with
  | nil => simp [mapDelete] at h
  | cons q m ih =>
      rw [mapDelete] at h
      by_cases hq : q.1 = k
      · rw [if_pos hq] at h
        exact List.mem_cons_of_mem q (ih h)
      · rw [if_neg hq] at h
        rcases List.mem_cons.mp h with he | h'
        · rw [he]
          exact List.mem_cons_self _ _
        · exact List.mem_cons_of_mem q (ih h')

theorem mapDelete_len_le (m : List (String × ContextItem)) (k : String) :
    (mapDelete m k).length ≤ m.length := by
  induction m with
  | nil => simp [mapDelete]
  | cons q m ih =>
      rw [mapDelete]
      by_cases hq : q.1 = k
      · rw [if_pos hq]
        simp only [List.length_cons]
        omega
      · rw [if_neg hq]
        simp only [List.length_cons]
        omega

theorem mapDelete_len_lt (m : List (String × ContextItem)) (k : String)
    (h : k ∈ m.map Prod.fst) : (mapDelete m k).length < m.length := by
  induction m with
  | nil => simp at h
  | cons q m ih =>
      rw [mapDelete]
      by_cases hq : q.1 = k
      · rw [if_pos hq]
        simp only [List.length_cons]
        exact Nat.lt_succ_of_le (mapDelete_len_le m k)
      · rw [if_neg hq]
        simp only [List.length_cons]
        have h' : k ∈ m.map Prod.fst := by
          rcases List.mem_map.mp h with ⟨p, hp, he⟩
          rcases List.mem_cons.mp hp with rfl | hp'
          · exact absurd he hq
          · exact List.mem_map.mpr ⟨p, hp', he⟩
        exact Nat.succ_lt_succ (ih h')

theorem mapInsert_keysMatch (m : List (String × ContextItem)) (i : ContextItem)
    (h : ∀ p ∈ m, p.2.id = p.1) : ∀ p ∈ mapInsert m i.id i, p.2.id = p.1 := by
  intro p hp
  rw [mapInsert] at hp
  by_cases hany : m.any (fun p => p.1 = i.id)
  · rw [if_pos hany] at hp
    rcases List.mem_map.mp hp with ⟨q, hq, he⟩
    by_cases hqk : q.1 = i.id
    · rw [if_pos hqk] at he
      rw [← he]
    · rw [if_neg hqk] at he
      rw [← he]
      exact h q hq
  · rw [if_neg hany] at hp
    rcases List.mem_append.mp hp with h' | h'
    · exact h p h'
    · rcases List.mem_singleton.mp h' with rfl
      rfl

theorem buildMap_keysMatch (l : List ContextItem) :
    ∀ p ∈ buildMap l, p.2.id = p.1 := by
  suffices hgen : ∀ (acc : List (String × ContextItem)),
      (∀ p ∈ acc, p.2.id = p.1) →
      ∀ p ∈ l.foldl (fun m i => mapInsert m i.id i) acc, p.2.id = p.1 by
    exact hgen [] (by simp)
  induction l with
  | nil => intro acc hacc p hp
           simpa using hacc p hp
  | cons i l ih =>
      intro acc hacc
      rw [List.foldl_cons]
      exact ih (mapInsert acc i.id i) (mapInsert_keysMatch acc i hacc)

theorem mapInsert_len_le (m : List (String × ContextItem)) (k : String)
    (v : ContextItem) : (mapInsert m k v).length ≤ m.length + 1 := by
  rw [mapInsert]
  by_cases hany : m.any (fun p => p.1 = k)
  · rw [if_pos hany]
    simp
  · rw [if_neg hany]
    simp

theorem buildMap_len_le (l : List ContextItem) :
    (buildMap l).length ≤ l.length := by
  suffices hgen : ∀ (acc : List (String × ContextItem)),
      (l.foldl (fun m i => mapInsert m i.id i) acc).length ≤ acc.length + l.length by
    simpa using hgen []
  induction l with
  | nil => intro acc
           simp
  | cons i l ih =>
      intro acc
      rw [List.foldl_cons]
      have h1 := ih (mapInsert acc i.id i)
      have h2 := mapInsert_len_le acc i.id i
      simp only [List.length_cons]
      omega

theorem nodup_subset_length (l t : List String) (hnd : l.Nodup)
    (hsub : ∀ x ∈ l, x ∈ t) : l.length ≤ t.length := by
  have hsp : l.Subperm t := List.Nodup.subperm hnd hsub
  simpa using hsp.length_le

theorem removeStr_sub (l : List String) (v k : String) (h : k ∈ removeStr l v) :
    k ∈ l := by
  induction l with
  | nil => simp [removeStr] at h
  | cons y l ih =>
      rw [removeStr] at h
      by_cases hy : y = v
      · rw [if_pos hy] at h
        exact List.mem_cons_of_mem y h
      · rw [if_neg hy] at h
        rcases List.mem_cons.mp h with rfl | h'
        · exact List.mem_cons_self _ _
        · exact List.mem_cons_of_mem y (ih h')

theorem removeStr_mem (l : List String) (v k : String) (hnd : l.Nodup) :
    k ∈ removeStr l v ↔ k ∈ l ∧ k ≠ v := by
  induction l with
  | nil => simp [removeStr]
  | cons y l ih =>
      rw [List.nodup_cons] at hnd
      rw [removeStr]
      by_cases hy : y = v
      · rw [if_pos hy]
        constructor
        · intro hk
          refine ⟨List.mem_cons_of_mem y hk, ?_⟩
          intro he
          rw [he, ← hy] at hk
          exact hnd.1 hk
        · intro ⟨hk, hne⟩
          rcases List.mem_cons.mp hk with rfl | h'
          · exact absurd hy hne
          · exact h'
      · rw [if_neg hy]
        constructor
        · intro hk
          rcases List.mem_cons.mp hk with rfl | h'
          · exact ⟨List.mem_cons_self _ _, fun he => hy he⟩
          · rcases (ih hnd.2).mp h' with ⟨h1, h2⟩
            exact ⟨List.mem_cons_of_mem y h1, h2⟩
        · intro ⟨hk, hne⟩
          rcases List.mem_cons.mp hk with rfl | h'
          · exact List.mem_cons_self _ _
          · exact List.mem_cons_of_mem y ((ih hnd.2).mpr ⟨h', hne⟩)

theorem removeStr_nodup (l : List String) (v : String) (hnd : l.Nodup) :
    (removeStr l v).Nodup := by
  induction l with
  | nil => simp [removeStr]
  | cons y l ih =>
      rw [List.nodup_cons] at hnd
      rw [removeStr]
      by_cases hy : y = v
      · rw [if_pos hy]
        exact hnd.2
      · rw [if_neg hy]
        rw [List.nodup_cons]
        exact ⟨fun hmem => hnd.1 (removeStr_sub l v y hmem), ih hnd.2⟩

theorem setInsert_mem (l : List String) (v k : String) :
    k ∈ setInsert l v ↔ k ∈ l ∨ k = v := by
  rw [setInsert]
  by_cases hv : v ∈ l
  · rw [if_pos hv]
    constructor
    · exact Or.inl
    · intro h
      rcases h with h | rfl
      · exact h
      · exact hv
  · rw [if_neg hv]
    simp

theorem setInsert_nodup (l : List String) (v : String) (hnd : l.Nodup) :
    (setInsert l v).Nodup := by
  rw [setInsert]
  by_cases hv : v ∈ l
  · rw [if_pos hv]
    exact hnd
  · rw [if_neg hv]
    rw [List.nodup_append]
    exact ⟨hnd, List.nodup_singleton v, by
      intro a ha hav
      rw [List.mem_singleton.mp hav] at ha
      exact hv ha⟩

theorem mkSet_fold_mem (l : List String) :
    ∀ (acc : List String) (k : String),
      k ∈ l.foldl setInsert acc ↔ k ∈ acc ∨ k ∈ l := by
  induction l with
  | nil => intro acc k
           simp
  | cons y l ih =>
      intro acc k
      rw [List.foldl_cons, ih (setInsert acc y) k, setInsert_mem]
      constructor
      · intro h
        rcases h with (h | rfl) | h
        · exact Or.inl h
        · exact Or.inr (List.mem_cons_self _ _)
        · exact Or.inr (List.mem_cons_of_mem y h)
      · intro h
        rcases h with h | h
        · exact Or.inl (Or.inl h)
        · rcases List.mem_cons.mp h with rfl | h'
          · exact Or.inl (Or.inr rfl)
          · exact Or.inr h'

theorem mkSet_mem (l : List String) (k : String) : k ∈ mkSet l ↔ k ∈ l := by
  rw [mkSet, mkSet_fold_mem]
  simp

theorem mkSet_nodup (l : List String) : (mkSet l).Nodup := by
  suffices hgen : ∀ (acc : List String), acc.Nodup →
      (l.foldl setInsert acc).Nodup by
    exact hgen [] List.Pairwise.nil
  induction l with
  | nil => intro acc hacc
           exact hacc
  | cons y l ih =>
      intro acc hacc
      rw [List.foldl_cons]
      exact ih (setInsert acc y) (setInsert_nodup acc y hacc)

theorem processConstraint_changed_mono (budget : Int) (s : EnfState) (c : Constraint)
    (h : s.changed = true) : (processConstraint budget s c).changed = true := by
  rw [processConstraint]
  repeat' split
  all_goals simp [h]

theorem processConstraint_cases (budget : Int) (s : EnfState) (c : Constraint) :
    processConstraint budget s c = s ∨
      (processConstraint budget s c).changed = true := by
  rw [processConstraint]
  repeat' split
  all_goals first
  | exact Or.inl rfl
  | exact Or.inr (by simp)

theorem processConstraint_of_unchanged (budget : Int) (s : EnfState) (c : Constraint)
    (h : (processConstraint budget s c).changed = false) :
    processConstraint budget s c = s := by
  rcases processConstraint_cases budget s c with he | hc
  · exact he
  · rw [hc] at h
    exact absurd h (by simp)

theorem enfPass_changed_mono (budget : Int) (cs : List Constraint) (s : EnfState)
    (h : s.changed = true) : (enfPass budget cs s).changed = true := by
  induction cs generalizing s with
  | nil => exact h
  | cons c cs ih =>
      have hfold : enfPass budget (c :: cs) s
          = enfPass budget cs (processConstraint budget s c) := by
        rw [enfPass, enfPass, List.foldl_cons]
      rw [hfold]
      exact ih _ (processConstraint_changed_mono budget s c h)

theorem enfPass_fix (budget : Int) (cs : List Constraint) (s : EnfState)
    (h : (enfPass budget cs s).changed = false) :
    enfPass budget cs s = s ∧ ∀ c ∈ cs, processConstraint budget s c = s := by
  induction cs generalizing s with
  | nil => exact ⟨rfl, by simp⟩
  | cons c cs ih =>
      have hfold : enfPass budget (c :: cs) s
          = enfPass budget cs (processConstraint budget s c) := by
        rw [enfPass, enfPass, List.foldl_cons]
      rw [hfold] at h ⊢
      have hstep : (processConstraint budget s c).changed = false := by
        by_cases hc : (processConstraint budget s c).changed = true
        · rw [enfPass_changed_mono budget cs _ hc] at h
          exact absurd h (by simp)
        · simpa using hc
      have heq := processConstraint_of_unchanged budget s c hstep
      rw [heq] at h ⊢
      obtain ⟨h1, h2⟩ := ih s h
      refine ⟨h1, fun d hd => ?_⟩
      rcases List.mem_cons.mp hd with rfl | hd'
      · exact heq
      · exact h2 d hd'

theorem findRemove_some_of_mem (k : String) (l : List ContextItem) (x : ContextItem)
    (hx : x ∈ l) (hid : x.id = k) :
    ∃ p, findRemove k l = some p := by
  induction l with
  | nil => simp at hx
  | cons i l ih =>
      rw [findRemove]
      by_cases hi : i.id = k
      · rw [if_pos hi]
        exact ⟨(i, l), rfl⟩
      · rw [if_neg hi]
        rcases List.mem_cons.mp hx with rfl | hx'
        · exact absurd hid hi
        · obtain ⟨p, hp⟩ := ih hx'
          rw [hp]
          exact ⟨(p.1, i :: p.2), rfl⟩

theorem findRemove_first_id (k : String) (l : List ContextItem)
    (p : ContextItem × List ContextItem) (h : findRemove k l = some p) :
    p.1.id = k := by
  induction l generalizing p with
  | nil => simp [findRemove] at h
  | cons i l ih =>
      rw [findRemove] at h
      by_cases hi : i.id = k
      · rw [if_pos hi] at h
        cases h
        exact hi
      · rw [if_neg hi] at h
        cases hfr : findRemove k l with
        | none => rw [hfr] at h
                  simp at h
        | some q =>
            rw [hfr] at h
            simp at h
            rw [← h]
            exact ih q hfr

theorem enf_step_all (budget : Int) (tr : List String) (s : EnfState) (c : Constraint)
    (hc : c.thenRequire ∈ tr) (hInv : enfInv tr s) :
    enfInv tr (processConstraint budget s c) ∧
    enfW tr (processConstraint budget s c) ≤ enfW tr s ∧
    ((processConstraint budget s c).changed = true →
      s.changed = true ∨ enfW tr (processConstraint budget s c) < enfW tr s) := by
  obtain ⟨hKeys, hNodup, hSub⟩ := hInv
  rw [processConstraint]
  split
  next h1 => exact ⟨⟨hKeys, hNodup, hSub⟩, le_rfl, fun h => Or.inl h⟩
  next h1 =>
  split
  next h2 => exact ⟨⟨hKeys, hNodup, hSub⟩, le_rfl, fun h => Or.inl h⟩
  next h2 =>
  split
  next h3 =>
    split
    next trigger rest heq =>
      split
      next h4 =>
        have hlen := findRemove_length c.ifIncluded s.included (trigger, rest) heq
        refine ⟨⟨hKeys, hNodup, hSub⟩, ?_, fun _ => Or.inr ?_⟩
        · simp only [enfW]
          simp only [List.length_append, List.length_cons, List.length_nil] at hlen ⊢
          omega
        · simp only [enfW]
          simp only [List.length_append, List.length_cons, List.length_nil] at hlen ⊢
          omega
      next h4 => exact ⟨⟨hKeys, hNodup, hSub⟩, le_rfl, fun h => Or.inl h⟩
    next heq => exact ⟨⟨hKeys, hNodup, hSub⟩, le_rfl, fun h => Or.inl h⟩
  next h3 =>
  have hnd2 : (s.failedDeps ++ [c.thenRequire]).Nodup := by
    rw [List.nodup_append]
    refine ⟨hNodup, List.nodup_singleton _, ?_⟩
    intro a ha hax
    rw [List.mem_singleton.mp hax] at ha
    exact h3 ha
  have hsub2 : ∀ x ∈ s.failedDeps ++ [c.thenRequire], x ∈ tr := by
    intro x hx
    rcases List.mem_append.mp hx with h' | h'
    · exact hSub x h'
    · rw [List.mem_singleton.mp h']
      exact hc
  have hflen : s.failedDeps.length + 1 ≤ tr.length := by
    have := nodup_subset_length _ _ hnd2 hsub2
    simpa using this
  split
  next heq =>
    refine ⟨⟨hKeys, hnd2, hsub2⟩, ?_, fun _ => Or.inr ?_⟩
    · simp only [enfW, List.length_append, List.length_cons, List.length_nil]
      omega
    · simp only [enfW, List.length_append, List.length_cons, List.length_nil]
      omega
  next dep heq =>
  split
  next h5 =>
    have hmem := mapGet_mem _ _ _ heq
    have hid : dep.id = c.thenRequire := hKeys _ hmem
    have hkey : dep.id ∈ s.availableMap.map Prod.fst :=
      List.mem_map.mpr ⟨(c.thenRequire, dep), hmem, hid.symm⟩
    have hlt := mapDelete_len_lt s.availableMap dep.id hkey
    have hkeys2 : ∀ p ∈ mapDelete s.availableMap dep.id, p.2.id = p.1 :=
      fun p hp => hKeys p (mapDelete_sub _ _ p hp)
    refine ⟨⟨hkeys2, hNodup, hSub⟩, ?_, fun _ => Or.inr ?_⟩
    · simp only [enfW, List.length_append, List.length_cons, List.length_nil]
      omega
    · simp only [enfW, List.length_append, List.length_cons, List.length_nil]
      omega
  next h5 =>
  split
  next trigger rest heq2 =>
    split
    next h6 =>
      have hlen := findRemove_length c.ifIncluded s.included (trigger, rest) heq2
      refine ⟨⟨hKeys, hnd2, hsub2⟩, ?_, fun _ => Or.inr ?_⟩
      · simp only [enfW]
        simp only [List.length_append, List.length_cons, List.length_nil] at hlen ⊢
        omega
      · simp only [enfW]
        simp only [List.length_append, List.length_cons, List.length_nil] at hlen ⊢
        omega
    next h6 =>
      refine ⟨⟨hKeys, hnd2, hsub2⟩, ?_, fun _ => Or.inr ?_⟩
      · simp only [enfW, List.length_append, List.length_cons, List.length_nil]
        omega
      · simp only [enfW, List.length_append, List.length_cons, List.length_nil]
        omega
  next heq2 =>
    refine ⟨⟨hKeys, hnd2, hsub2⟩, ?_, fun _ => Or.inr ?_⟩
    · simp only [enfW, List.length_append, List.length_cons, List.length_nil]
      omega
    · simp only [enfW, List.length_append, List.length_cons, List.length_nil]
      omega

theorem enf_pass_all (budget : Int) (tr : List String) (cs : List Constraint)
    (s : EnfState) (hcs : ∀ c ∈ cs, c.thenRequire ∈ tr) (hInv : enfInv tr s) :
    enfInv tr (enfPass budget cs s) ∧
    enfW tr (enfPass budget cs s) ≤ enfW tr s ∧
    ((enfPass budget cs s).changed = true →
      s.changed = true ∨ enfW tr (enfPass budget cs s) < enfW tr s) := by
  induction cs generalizing s with
  | nil => exact ⟨hInv, le_rfl, fun h => Or.inl h⟩
  | cons c cs ih =>
      have hstep := enf_step_all budget tr s c (hcs c (List.mem_cons_self c cs)) hInv
      have hpass := ih (processConstraint budget s c)
        (fun d hd => hcs d (List.mem_cons_of_mem c hd)) hstep.1
      have hfold : enfPass budget (c :: cs) s
          = enfPass budget cs (processConstraint budget s c) := by
        rw [enfPass, enfPass, List.foldl_cons]
      rw [hfold]
      refine ⟨hpass.1, le_trans hpass.2.1 hstep.2.1, fun hch => ?_⟩
      rcases hpass.2.2 hch with h' | h'
      · rcases hstep.2.2 h' with h'' | h''
        · exact Or.inl h''
        · exact Or.inr (lt_of_le_of_lt hpass.2.1 h'')
      · exact Or.inr (lt_of_lt_of_le h' hstep.2.1)

theorem enfLoop_unchanged (budget : Int) (cs : List Constraint) (n : Nat)
    (s : EnfState) (h : s.changed = false) : enfLoop budget cs n s = s := by
  cases n with
  | zero => rfl
  | succ n => rw [enfLoop, if_neg (by simp [h])]

theorem enfLoop_result_pass (budget : Int) (cs : List Constraint) :
    ∀ (n : Nat) (s : EnfState), s.changed = true →
      (enfLoop budget cs n s).changed = false →
      ∃ u : EnfState, enfLoop budget cs n s = enfPass budget cs u := by
  intro n
  induction n with
  | zero =>
      intro s hs h
      rw [enfLoop] at h
      rw [hs] at h
      exact absurd h (by simp)
  | succ n ih =>
      intro s hs h
      rw [enfLoop, if_pos hs] at h ⊢
      by_cases ht : (enfPass budget cs { s with changed := false }).changed
      · exact ih _ ht h
      · rw [enfLoop_unchanged budget cs n _ (by simpa using ht)]
        exact ⟨{ s with changed := false }, rfl⟩

theorem enf_loop_fix (budget : Int) (cs : List Constraint) (tr : List String)
    (hcs : ∀ c ∈ cs, c.thenRequire ∈ tr) (n : Nat) :
    ∀ s : EnfState, enfInv tr s → enfW tr s < n →
      (enfLoop budget cs n s).changed = false := by
  induction n with
  | zero => intro s _ h
            exact absurd h (Nat.not_lt_zero _)
  | succ n ih =>
      intro s hInv hW
      by_cases hch : s.changed
      · rw [enfLoop, if_pos hch]
        have hInv0 : enfInv tr { s with changed := false } := hInv
        have hp := enf_pass_all budget tr cs { s with changed := false } hcs hInv0
        by_cases htc : (enfPass budget cs { s with changed := false }).changed
        · have hlt : enfW tr (enfPass budget cs { s with changed := false })
              < enfW tr { s with changed := false } := by
            rcases hp.2.2 htc with h' | h'
            · simp at h'
            · exact h'
          have hWn : enfW tr (enfPass budget cs { s with changed := false }) < n := by
            have he : enfW tr { s with changed := false } = enfW tr s := rfl
            omega
          exact ih _ hp.1 hWn
        · rw [enfLoop_unchanged budget cs n _ (by simpa using htc)]
          simpa using htc
      · rw [enfLoop, if_neg hch]
        simpa using hch

theorem enfLoop_stable (budget : Int) (cs : List Constraint) :
    ∀ (n k : Nat) (s : EnfState), (enfLoop budget cs n s).changed = false →
      enfLoop budget cs (n + k) s = enfLoop budget cs n s := by
  intro n
  induction n with
  | zero =>
      intro k s h
      rw [Nat.zero_add]
      exact enfLoop_unchanged budget cs k s h
  | succ n ih =>
      intro k s h
      by_cases hch : s.changed
      · have e1 : enfLoop budget cs (n + 1) s
            = enfLoop budget cs n (enfPass budget cs { s with changed := false }) := by
          rw [enfLoop, if_pos hch]
        have e2 : enfLoop budget cs (n + 1 + k) s
            = enfLoop budget cs (n + k)
                (enfPass budget cs { s with changed := false }) := by
          rw [show n + 1 + k = (n + k) + 1 by omega, enfLoop, if_pos hch]
        rw [e1] at h
        rw [e2, e1]
        exact ih k _ h
      · have hs : s.changed = false := by
          simp only [Bool.not_eq_true] at hch
          exact hch
        rw [enfLoop_unchanged budget cs _ s hs, enfLoop_unchanged budget cs _ s hs]

theorem enforce_fuel_fix (included available : List ContextItem)
    (cs : List Constraint) (budget : Int) :
    (enfLoop budget cs (enforceFuel included available cs)
      (initEnfState included available)).changed = false := by
  have hcs : ∀ c ∈ cs, c.thenRequire ∈ cs.map (fun c => c.thenRequire) :=
    fun c hc => List.mem_map.mpr ⟨c, hc, rfl⟩
  have hInv : enfInv (cs.map (fun c => c.thenRequire))
      (initEnfState included available) := by
    refine ⟨buildMap_keysMatch available, ?_, ?_⟩
    · simp [initEnfState]
    · simp [initEnfState]
  have hW : enfW (cs.map (fun c => c.thenRequire)) (initEnfState included available)
      < enforceFuel included available cs := by
    have h1 := buildMap_len_le available
    have h2 : (cs.map (fun c => c.thenRequire)).length = cs.length := by simp
    simp only [enfW, initEnfState, enforceFuel, List.length_nil]
    omega
  exact enf_loop_fix budget cs (cs.map (fun c => c.thenRequire)) hcs
    (enforceFuel included available cs) (initEnfState included available) hInv hW

theorem pushGroup_eq (arr : List ContextItem) (acc : List PackedItem) (pl : Placement) :
    pushGroup acc arr pl = acc ++ arr.map (toPacked pl) := by
  induction arr generalizing acc with
  | nil => simp [pushGroup]
  | cons x l ih =>
      show (x :: l).foldl (fun r i => r ++ [toPacked pl i]) acc = _
      rw [List.foldl_cons]
      exact (ih (acc ++ [toPacked pl x])).trans (by simp)

theorem classify_fold_eq (items : List ContextItem) (b : PlaceBuckets) :
    items.foldl classifyStep b =
      { pinStart := b.pinStart ++ items.filter pinStartP
        pinEnd := b.pinEnd ++ items.filter pinEndP
        query := b.query ++ items.filter queryP
        float := b.float ++ items.filter floatP } := by
  induction items generalizing b with
  | nil => cases b
           simp
  | cons i l ih =>
      rw [List.foldl_cons, ih]
      unfold classifyStep
      by_cases hq : i.source = "query"
      · simp [pinStartP, pinEndP, queryP, floatP, hq]
      · by_cases hb : i.position = some Position.beginning
        · simp [pinStartP, pinEndP, queryP, floatP, hq, hb]
        · by_cases he : i.position = some Position.ending
          · simp [pinStartP, pinEndP, queryP, floatP, hq, hb, he]
          · simp [pinStartP, pinEndP, queryP, floatP, hq, hb, he]

theorem classifyItems_eq (items : List ContextItem) :
    classifyItems items =
      { pinStart := items.filter pinStartP
        pinEnd := items.filter pinEndP
        query := items.filter queryP
        float := items.filter floatP } := by
  unfold classifyItems
  rw [classify_fold_eq]
  simp

theorem insertCmp_perm (cmp : ContextItem → ContextItem → Int) (x : ContextItem)
    (l : List ContextItem) : (insertCmp cmp x l).Perm (x :: l) := by
  induction l with
  | nil => simp [insertCmp]
  | cons y l ih =>
      rw [insertCmp]
      by_cases h : cmp x y < 0
      · rw [if_pos h]
      · rw [if_neg h]
        exact ((ih.cons y).trans (List.Perm.swap x y l)).symm.symm

theorem sortCmp_fold_perm (cmp : ContextItem → ContextItem → Int)
    (l acc : List ContextItem) :
    (l.foldl (fun acc x => insertCmp cmp x acc) acc).Perm (acc ++ l) := by
  induction l generalizing acc with
  | nil => simp
  | cons x l ih =>
      rw [List.foldl_cons]
      refine (ih (insertCmp cmp x acc)).trans ?_
      refine (List.Perm.append_right l ((insertCmp_perm cmp x acc))).trans ?_
      exact List.perm_middle.symm

theorem sortCmp_perm (cmp : ContextItem → ContextItem → Int) (l : List ContextItem) :
    (sortCmp cmp l).Perm l := by
  have := sortCmp_fold_perm cmp l []
  simpa [sortCmp] using this

theorem insertCmp_pairwise (R : ContextItem → ContextItem → Prop)
    (cmp : ContextItem → ContextItem → Int)
    (hT : Transitive R)
    (h1 : ∀ a b, cmp a b < 0 → R a b)
    (h2 : ∀ a b, ¬ cmp a b < 0 → R b a)
    (x : ContextItem) (l : List ContextItem) (hl : l.Pairwise R) :
    (insertCmp cmp x l).Pairwise R := by
  induction l with
  | nil => simp [insertCmp]
  | cons y l ih =>
      rw [insertCmp]
      rcases List.pairwise_cons.mp hl with ⟨hy, hl'⟩
      by_cases h : cmp x y < 0
      · rw [if_pos h]
        refine List.pairwise_cons.mpr ⟨?_, hl⟩
        intro z hz
        rcases List.mem_cons.mp hz with rfl | hz'
        · exact h1 x z h
        · exact hT (h1 x y h) (hy z hz')
      · rw [if_neg h]
        refine List.pairwise_cons.mpr ⟨?_, ih hl'⟩
        intro z hz
        rcases List.mem_cons.mp ((insertCmp_perm cmp x l).mem_iff.mp hz) with he | hz'
        · rw [he]
          exact h2 x y h
        · exact hy z hz'

theorem sortCmp_pairwise (R : ContextItem → ContextItem → Prop)
    (cmp : ContextItem → ContextItem → Int)
    (hT : Transitive R)
    (h1 : ∀ a b, cmp a b < 0 → R a b)
    (h2 : ∀ a b, ¬ cmp a b < 0 → R b a)
    (l : List ContextItem) : (sortCmp cmp l).Pairwise R := by
  suffices h : ∀ acc, acc.Pairwise R →
      (l.foldl (fun acc x => insertCmp cmp x acc) acc).Pairwise R by
    exact h [] (List.Pairwise.nil)
  induction l with
  | nil => intro acc hacc
           simpa using hacc
  | cons x l ih =>
      intro acc hacc
      rw [List.foldl_cons]
      exact ih (insertCmp cmp x acc) (insertCmp_pairwise R cmp hT h1 h2 x acc hacc)

theorem altSplit_perm (l : List ContextItem) :
    ((altSplit l).1 ++ (altSplit l).2).Perm l := by
  induction l with
  | nil => simp [altSplit]
  | cons x l ih =>
      show ((altSplit (x :: l)).1 ++ (altSplit (x :: l)).2).Perm (x :: l)
      rw [altSplit]
      show (x :: (altSplit l).2 ++ (altSplit l).1).Perm (x :: l)
      exact (List.perm_append_comm.trans ih).cons x

theorem four_filter_perm (items : List ContextItem) :
    (items.filter pinStartP ++ items.filter floatP ++ items.filter pinEndP
      ++ items.filter queryP).Perm items := by
  induction items with
  | nil => simp
  | cons i l ih =>
      by_cases hq : i.source = "query"
      · have e1 : pinStartP i = false := by simp [pinStartP, hq]
        have e2 : floatP i = false := by simp [floatP, hq]
        have e3 : pinEndP i = false := by simp [pinEndP, hq]
        have e4 : queryP i = true := by simp [queryP, hq]
        simp only [List.filter_cons, e1, e2, e3, e4, Bool.false_eq_true, if_false, if_true]
        exact List.Perm.trans List.perm_middle (ih.cons i)
      · by_cases hb : i.position = some Position.beginning
        · have e1 : pinStartP i = true := by simp [pinStartP, hq, hb]
          have e2 : floatP i = false := by simp [floatP, hb]
          have e3 : pinEndP i = false := by simp [pinEndP, hb]
          have e4 : queryP i = false := by simp [queryP, hq]
          simp only [List.filter_cons, e1, e2, e3, e4, Bool.false_eq_true, if_false,
            if_true]
          simpa using ih.cons i
        · by_cases he : i.position = some Position.ending
          · have e1 : pinStartP i = false := by simp [pinStartP, hb]
            have e2 : floatP i = false := by simp [floatP, he]
            have e3 : pinEndP i = true := by simp [pinEndP, hq, hb, he]
            have e4 : queryP i = false := by simp [queryP, hq]
            simp only [List.filter_cons, e1, e2, e3, e4, Bool.false_eq_true, if_false,
              if_true]
            exact List.Perm.trans (List.Perm.append_right _ List.perm_middle) (ih.cons i)
          · have e1 : pinStartP i = false := by simp [pinStartP, hb]
            have e2 : floatP i = true := by simp [floatP, hq, hb, he]
            have e3 : pinEndP i = false := by simp [pinEndP, he]
            have e4 : queryP i = false := by simp [queryP, hq]
            simp only [List.filter_cons, e1, e2, e3, e4, Bool.false_eq_true, if_false,
              if_true]
            exact List.Perm.trans
              (List.Perm.append_right _ (List.Perm.append_right _ List.perm_middle))
              (ih.cons i)

theorem perm_blocks {α : Type} (A A0 B1 B2 B0 C C0 D D0 : List α)
    (hA : A.Perm A0) (hB : (B1 ++ B2).Perm B0) (hC : C.Perm C0) (hD : D.Perm D0) :
    (A ++ B1 ++ B2 ++ C ++ D).Perm (A0 ++ B0 ++ C0 ++ D0) := by
  have e : A ++ B1 ++ B2 ++ C ++ D = A ++ (B1 ++ B2) ++ C ++ D := by
    simp [List.append_assoc]
  rw [e]
  exact ((hA.append hB).append hC).append hD

theorem applyPlacement_concat (items : List ContextItem) :
    applyPlacement items =
      (sortCmp cmpIndexAsc (items.filter pinStartP)).map (toPacked Placement.beginning)
      ++ (altSplit (sortCmp cmpScoreDesc (items.filter floatP))).1.map
          (toPacked Placement.beginning)
      ++ (altSplit (sortCmp cmpScoreDesc (items.filter floatP))).2.reverse.map
          (toPacked Placement.middle)
      ++ (sortCmp cmpIndexAsc (items.filter pinEndP)).map (toPacked Placement.ending)
      ++ (items.filter queryP).map (toPacked Placement.ending) := by
  unfold applyPlacement
  rw [classifyItems_eq]
  simp [pushGroup_eq, List.append_assoc]

theorem applyPlacement_ids_perm (items : List ContextItem) :
    ((applyPlacement items).map (fun p => p.id)).Perm (items.map (fun i => i.id)) := by
  rw [applyPlacement_concat]
  have hid : ∀ (pl : Placement) (l : List ContextItem),
      (l.map (toPacked pl)).map (fun p => p.id) = l.map (fun i => i.id) := by
    intro pl l
    rw [List.map_map]
    rfl
  simp only [List.map_append, hid]
  have hfl : ((altSplit (sortCmp cmpScoreDesc (items.filter floatP))).1.map (fun i => i.id)
      ++ (altSplit (sortCmp cmpScoreDesc (items.filter floatP))).2.reverse.map
        (fun i => i.id)).Perm ((items.filter floatP).map (fun i => i.id)) := by
    refine List.Perm.trans ?_ ((sortCmp_perm cmpScoreDesc _).map _)
    refine List.Perm.trans ?_ ((altSplit_perm (sortCmp cmpScoreDesc
      (items.filter floatP))).map _)
    rw [← List.map_append]
    refine List.Perm.map _ ?_
    exact List.Perm.append_left _ (List.reverse_perm _)
  have h4 : ((items.filter pinStartP).map (fun i => i.id)
      ++ (items.filter floatP).map (fun i => i.id)
      ++ (items.filter pinEndP).map (fun i => i.id)
      ++ (items.filter queryP).map (fun i => i.id)).Perm
      (items.map (fun i => i.id)) := by
    have := (four_filter_perm items).map (fun i => i.id)
    simpa [List.map_append] using this
  refine List.Perm.trans ?_ h4
  exact perm_blocks _ _ _ _ _ _ _ _ _
    ((sortCmp_perm cmpIndexAsc _).map _) hfl
    ((sortCmp_perm cmpIndexAsc _).map _) (List.Perm.refl _)

theorem processConstraint_keeps_required (budget : Int) (s : EnfState) (c : Constraint)
    (x : ContextItem) (hx : x ∈ s.included) (hp : x.priority = Priority.required) :
    x ∈ (processConstraint budget s c).included := by
  rw [processConstraint]
  split
  next => exact hx
  next =>
  split
  next => exact hx
  next =>
  split
  next =>
    split
    next trigger rest heq =>
      split
      next h4 =>
        have hperm := findRemove_perm _ _ _ heq
        rcases List.mem_cons.mp (hperm.mem_iff.mp hx) with he | h'
        · rw [he] at hp
          exact absurd hp h4
        · exact h'
      next h4 => exact hx
    next => exact hx
  next =>
  split
  next => exact hx
  next dep heq =>
  split
  next => exact List.mem_append_left _ hx
  next =>
  split
  next trigger rest heq2 =>
    split
    next h6 =>
      have hperm := findRemove_perm _ _ _ heq2
      rcases List.mem_cons.mp (hperm.mem_iff.mp hx) with he | h'
      · rw [he] at hp
        exact absurd hp h6
      · exact h'
    next h6 => exact hx
  next => exact hx

theorem enfPass_keeps_required (budget : Int) (cs : List Constraint) (s : EnfState)
    (x : ContextItem) (hx : x ∈ s.included) (hp : x.priority = Priority.required) :
    x ∈ (enfPass budget cs s).included := by
  induction cs generalizing s with
  | nil => exact hx
  | cons c cs ih =>
      have hfold : enfPass budget (c :: cs) s
          = enfPass budget cs (processConstraint budget s c) := by
        rw [enfPass, enfPass, List.foldl_cons]
      rw [hfold]
      exact ih _ (processConstraint_keeps_required budget s c x hx hp)

theorem enfLoop_keeps_required (budget : Int) (cs : List Constraint) (n : Nat)
    (s : EnfState) (x : ContextItem) (hx : x ∈ s.included)
    (hp : x.priority = Priority.required) :
    x ∈ (enfLoop budget cs n s).included := by
  induction n generalizing s with
  | zero => exact hx
  | succ n ih =>
      rw [enfLoop]
      by_cases hch : s.changed
      · rw [if_pos hch]
        exact ih _ (enfPass_keeps_required budget cs _ x hx hp)
      · rw [if_neg hch]
        exact hx

theorem enforceConstraints_keeps_required (included available : List ContextItem)
    (cs : List Constraint) (budget : Int) (x : ContextItem) (hx : x ∈ included)
    (hp : x.priority = Priority.required) :
    x ∈ (enforceConstraints included available cs budget).included := by
  rw [enforceConstraints]
  by_cases hcs : cs = []
  · rw [if_pos hcs]
    exact hx
  · rw [if_neg hcs]
    exact enfLoop_keeps_required budget cs _ _ x hx hp

theorem greedyPack_keeps_required (items : List ContextItem) (budget : Int)
    (x : ContextItem) (hx : x ∈ items) (hp : x.priority = Priority.required) :
    x ∈ (greedyPack items budget).included := by
  rw [greedyPack]
  exact List.mem_append_left _ (List.mem_filter.mpr ⟨hx, by simp [hp]⟩)

theorem applyPlacement_mem (items : List ContextItem) (x : ContextItem)
    (hx : x ∈ items) :
    ∃ p ∈ applyPlacement items, p.id = x.id ∧ p.content = x.content ∧
      p.tokens = x.tokens ∧ p.source = x.source := by
  rw [applyPlacement_concat]
  have hx4 : x ∈ items.filter pinStartP ++ items.filter floatP
      ++ items.filter pinEndP ++ items.filter queryP :=
    (four_filter_perm items).mem_iff.mpr hx
  rcases List.mem_append.mp hx4 with h3 | hQ
  rcases List.mem_append.mp h3 with h2 | hE
  rcases List.mem_append.mp h2 with hS | hF
  · refine ⟨toPacked Placement.beginning x, ?_, rfl, rfl, rfl, rfl⟩
    refine List.mem_append_left _ (List.mem_append_left _ (List.mem_append_left _
      (List.mem_append_left _ ?_)))
    exact List.mem_map_of_mem _ ((sortCmp_perm cmpIndexAsc _).mem_iff.mpr hS)
  · have hsf : x ∈ sortCmp cmpScoreDesc (items.filter floatP) :=
      (sortCmp_perm cmpScoreDesc _).mem_iff.mpr hF
    have halt : x ∈ (altSplit (sortCmp cmpScoreDesc (items.filter floatP))).1
        ++ (altSplit (sortCmp cmpScoreDesc (items.filter floatP))).2 :=
      (altSplit_perm _).mem_iff.mpr hsf
    rcases List.mem_append.mp halt with h1 | h2
    · refine ⟨toPacked Placement.beginning x, ?_, rfl, rfl, rfl, rfl⟩
      refine List.mem_append_left _ (List.mem_append_left _ (List.mem_append_left _
        (List.mem_append_right _ ?_)))
      exact List.mem_map_of_mem _ h1
    · refine ⟨toPacked Placement.middle x, ?_, rfl, rfl, rfl, rfl⟩
      refine List.mem_append_left _ (List.mem_append_left _ (List.mem_append_right _ ?_))
      exact List.mem_map_of_mem _ (List.mem_reverse.mpr h2)
  · refine ⟨toPacked Placement.ending x, ?_, rfl, rfl, rfl, rfl⟩
    refine List.mem_append_left _ (List.mem_append_right _ ?_)
    exact List.mem_map_of_mem _ ((sortCmp_perm cmpIndexAsc _).mem_iff.mpr hE)
  · refine ⟨toPacked Placement.ending x, ?_, rfl, rfl, rfl, rfl⟩
    refine List.mem_append_right _ ?_
    exact List.mem_map_of_mem _ hQ

theorem perm_snoc {α : Type} (L : List α) (x : α) : (L ++ [x]).Perm (x :: L) :=
  List.perm_append_comm

theorem greedy_scan_reason (l : List ContextItem)
    (acc : List ContextItem × List DroppedItem × Int)
    (h : ∀ d ∈ acc.2.1, d.reason = "budget exhausted") :
    ∀ d ∈ (l.foldl greedyStep acc).2.1, d.reason = "budget exhausted" := by
  induction l generalizing acc with
  | nil => exact h
  | cons i l ih =>
      rw [List.foldl_cons]
      refine ih (greedyStep acc i) ?_
      rw [greedyStep]
      by_cases hf : (i.tokens : Int) ≤ acc.2.2
      · rw [if_pos hf]
        exact h
      · rw [if_neg hf]
        intro d hd
        rcases List.mem_append.mp hd with h' | h'
        · exact h d h'
        · rw [List.mem_singleton.mp h']
          rfl

theorem greedyPack_dropped_reason (items : List ContextItem) (budget : Int) :
    ∀ d ∈ (greedyPack items budget).dropped, d.reason = "budget exhausted" := by
  rw [greedyPack]
  exact greedy_scan_reason _ _ (by simp)

theorem greedy_scan_ids (l : List ContextItem)
    (acc : List ContextItem × List DroppedItem × Int) :
    (((l.foldl greedyStep acc).1.map (fun i => i.id))
      ++ ((l.foldl greedyStep acc).2.1.map (fun d => d.id))).Perm
    ((acc.1.map (fun i => i.id)) ++ (acc.2.1.map (fun d => d.id))
      ++ (l.map (fun i => i.id))) := by
  induction l generalizing acc with
  | nil => simp
  | cons i l ih =>
      rw [List.foldl_cons]
      refine (ih (greedyStep acc i)).trans ?_
      rw [greedyStep]
      by_cases hf : (i.tokens : Int) ≤ acc.2.2
      · rw [if_pos hf]
        simp only [List.map_append, List.map_cons, List.map_nil]
        have e1 : (acc.1.map (fun i => i.id) ++ [i.id])
            ++ acc.2.1.map (fun d => d.id) ++ l.map (fun i => i.id)
            = acc.1.map (fun i => i.id)
              ++ (i.id :: (acc.2.1.map (fun d => d.id) ++ l.map (fun i => i.id))) := by
          simp
        have e2 : acc.1.map (fun i => i.id) ++ acc.2.1.map (fun d => d.id)
            ++ (i.id :: l.map (fun i => i.id))
            = acc.1.map (fun i => i.id)
              ++ (acc.2.1.map (fun d => d.id) ++ i.id :: l.map (fun i => i.id)) := by
          rw [List.append_assoc]
        rw [e1, e2]
        exact List.Perm.append_left _ List.perm_middle.symm
      · rw [if_neg hf]
        simp only [List.map_append, List.map_cons, List.map_nil]
        have e1 : acc.1.map (fun i => i.id)
            ++ (acc.2.1.map (fun d => d.id) ++ [(mkBudgetDropped i).id])
            ++ l.map (fun i => i.id)
            = acc.1.map (fun i => i.id)
              ++ (acc.2.1.map (fun d => d.id)
                ++ (i.id :: l.map (fun i => i.id))) := by
          simp [mkBudgetDropped]
        have e2 : acc.1.map (fun i => i.id) ++ acc.2.1.map (fun d => d.id)
            ++ (i.id :: l.map (fun i => i.id))
            = acc.1.map (fun i => i.id)
              ++ (acc.2.1.map (fun d => d.id) ++ i.id :: l.map (fun i => i.id)) := by
          rw [List.append_assoc]
        rw [e1, e2]

theorem two_filter_perm (items : List ContextItem) :
    (items.filter (fun i => i.priority = Priority.required)
      ++ items.filter (fun i => ¬ i.priority = Priority.required)).Perm items := by
  induction items with
  | nil => simp
  | cons i l ih =>
      by_cases h : i.priority = Priority.required
      · simp only [List.filter_cons]
        have e1 : (decide (i.priority = Priority.required)) = true := by
          simp [h]
        have e2 : (decide (¬ i.priority = Priority.required)) = false := by
          simp [h]
        rw [e1, e2]
        simp only [Bool.false_eq_true, if_false, if_true]
        exact ih.cons i
      · simp only [List.filter_cons]
        have e1 : (decide (i.priority = Priority.required)) = false := by
          simp [h]
        have e2 : (decide (¬ i.priority = Priority.required)) = true := by
          simp [h]
        rw [e1, e2]
        simp only [Bool.false_eq_true, if_false, if_true]
        exact List.Perm.trans List.perm_middle (ih.cons i)

theorem greedyPack_ids_perm (items : List ContextItem) (budget : Int) :
    (((greedyPack items budget).included.map (fun i => i.id))
      ++ ((greedyPack items budget).dropped.map (fun d => d.id))).Perm
    (items.map (fun i => i.id)) := by
  rw [greedyPack]
  simp only [List.map_append]
  rw [List.append_assoc]
  refine List.Perm.trans (List.Perm.append_left _ (greedy_scan_ids _ _)) ?_
  simp only [List.map_nil, List.nil_append]
  refine List.Perm.trans (List.Perm.append_left _
    ((sortCmp_perm cmpPack _).map (fun i => i.id))) ?_
  have := (two_filter_perm items).map (fun i => i.id)
  simpa [List.map_append] using this

theorem find_by_id (l : List ContextItem) (k : String)
    (h : k ∈ l.map (fun i => i.id)) :
    ∃ x, l.find? (fun i => i.id == k) = some x ∧ x.id = k := by
  induction l with
  | nil => simp at h
  | cons i l ih =>
      by_cases hi : i.id = k
      · refine ⟨i, ?_, hi⟩
        have hb : (i.id == k) = true := by simp [hi]
        rw [List.find?_cons, hb]
      · have h' : k ∈ l.map (fun i => i.id) := by
          rcases List.mem_map.mp h with ⟨x, hx, he⟩
          rcases List.mem_cons.mp hx with rfl | hx'
          · exact absurd he hi
          · exact List.mem_map.mpr ⟨x, hx', he⟩
        obtain ⟨x, hf, hx⟩ := ih h'
        refine ⟨x, ?_, hx⟩
        have hb : (i.id == k) = false := by simp [hi]
        rw [List.find?_cons, hb]
        exact hf

theorem filterMap_find_ids (dropped : List DroppedItem) (all : List ContextItem)
    (h : ∀ d ∈ dropped, d.id ∈ all.map (fun i => i.id)) :
    (dropped.filterMap (fun d => all.find? (fun i => i.id == d.id))).map
        (fun i => i.id)
      = dropped.map (fun d => d.id) := by
  induction dropped with
  | nil => simp
  | cons d ds ih =>
      obtain ⟨x, hf, hx⟩ := find_by_id all d.id (h d (List.mem_cons_self d ds))
      rw [List.filterMap_cons, hf]
      simp only [List.map_cons]
      rw [hx, ih (fun e he => h e (List.mem_cons_of_mem d he))]

theorem packAvailable_ids (cfg : OptimizerConfig) (sources : List ContextSource)
    (query : Option String) :
    (packAvailable cfg sources query).map (fun i => i.id)
      = (packGreedy cfg sources query).dropped.map (fun d => d.id) := by
  rw [packAvailable]
  refine filterMap_find_ids _ _ ?_
  intro d hd
  have hin : d.id ∈ ((packGreedy cfg sources query).included.map (fun i => i.id))
      ++ ((packGreedy cfg sources query).dropped.map (fun d => d.id)) :=
    List.mem_append_right _ (List.mem_map_of_mem _ hd)
  exact (greedyPack_ids_perm _ _).mem_iff.mp hin

theorem mapDelete_of_not_mem (m : List (String × ContextItem)) (k : String)
    (h : ¬ k ∈ m.map Prod.fst) : mapDelete m k = m := by
  induction m with
  | nil => rfl
  | cons q m ih =>
      rw [mapDelete]
      have hq : ¬ q.1 = k := by
        intro he
        exact h (List.mem_map.mpr ⟨q, List.mem_cons_self q m, he⟩)
      rw [if_neg hq]
      have h' : ¬ k ∈ m.map Prod.fst := by
        intro hm
        rcases List.mem_map.mp hm with ⟨p, hp, he⟩
        exact h (List.mem_map.mpr ⟨p, List.mem_cons_of_mem q hp, he⟩)
      rw [ih h']

theorem keys_delete_perm (m : List (String × ContextItem)) (k : String)
    (hnd : (m.map Prod.fst).Nodup) (hk : k ∈ m.map Prod.fst) :
    (m.map Prod.fst).Perm (k :: (mapDelete m k).map Prod.fst) := by
  induction m with
  | nil => simp at hk
  | cons q m ih =>
      rw [mapDelete]
      by_cases hq : q.1 = k
      · rw [if_pos hq]
        have hknotin : ¬ k ∈ m.map Prod.fst := by
          rw [List.map_cons, List.nodup_cons] at hnd
          rw [← hq]
          exact hnd.1
        rw [mapDelete_of_not_mem m k hknotin, List.map_cons, hq]
      · rw [if_neg hq]
        have hk' : k ∈ m.map Prod.fst := by
          rcases List.mem_map.mp hk with ⟨p, hp, he⟩
          rcases List.mem_cons.mp hp with rfl | hp'
          · exact absurd he hq
          · exact List.mem_map.mpr ⟨p, hp', he⟩
        have hnd' : (m.map Prod.fst).Nodup := by
          rw [List.map_cons, List.nodup_cons] at hnd
          exact hnd.2
        rw [List.map_cons, List.map_cons]
        exact ((ih hnd' hk').cons q.1).trans (List.Perm.swap k q.1 _)

/-- Id-freshness invariant of the enforcement loop: map entries are keyed by
their item's id, and the included ids, the map keys and the removed ids are
jointly duplicate-free. -/
def enfIdsInv (s : EnfState) : Prop :=
  (∀ p ∈ s.availableMap, p.2.id = p.1) ∧
  ((s.included.map (fun i => i.id)) ++ (s.availableMap.map Prod.fst)
    ++ (s.removed.map (fun i => i.id))).Nodup

theorem enfIdsInv_step (budget : Int) (s : EnfState) (c : Constraint)
    (h : enfIdsInv s) : enfIdsInv (processConstraint budget s c) := by
  obtain ⟨hKeys, hNd⟩ := h
  have hremove : ∀ (trigger : ContextItem) (rest : List ContextItem),
      findRemove c.ifIncluded s.included = some (trigger, rest) →
      ((rest.map (fun i => i.id)) ++ (s.availableMap.map Prod.fst)
        ++ ((s.removed ++ [trigger]).map (fun i => i.id))).Nodup := by
    intro trigger rest heq
    have hperm := findRemove_perm _ _ _ heq
    have hids : (s.included.map (fun i => i.id)).Perm
        (trigger.id :: rest.map (fun i => i.id)) := by
      have := hperm.map (fun i => i.id)
      simpa using this
    refine List.Perm.nodup ?_ hNd
    refine List.Perm.trans
      (List.Perm.append_right _ (List.Perm.append_right _ hids)) ?_
    show (trigger.id :: rest.map (fun i => i.id)
        ++ s.availableMap.map Prod.fst ++ s.removed.map (fun i => i.id)).Perm _
    have etgt : (rest.map (fun i => i.id)) ++ (s.availableMap.map Prod.fst)
        ++ ((s.removed ++ [trigger]).map (fun i => i.id))
        = ((rest.map (fun i => i.id)) ++ (s.availableMap.map Prod.fst)
          ++ (s.removed.map (fun i => i.id))) ++ [trigger.id] := by
      simp [List.append_assoc]
    rw [etgt]
    exact (perm_snoc _ trigger.id).symm
  rw [processConstraint]
  split
  next => exact ⟨hKeys, hNd⟩
  next =>
  split
  next => exact ⟨hKeys, hNd⟩
  next =>
  split
  next =>
    split
    next trigger rest heq =>
      split
      next h4 => exact ⟨hKeys, hremove trigger rest heq⟩
      next h4 => exact ⟨hKeys, hNd⟩
    next => exact ⟨hKeys, hNd⟩
  next =>
  split
  next => exact ⟨hKeys, hNd⟩
  next dep heq =>
  split
  next h5 =>
    have hmem := mapGet_mem _ _ _ heq
    have hid : dep.id = c.thenRequire := hKeys _ hmem
    have hkeynd : (s.availableMap.map Prod.fst).Nodup := by
      have h1 : ((s.included.map (fun i => i.id))
          ++ (s.availableMap.map Prod.fst)).Nodup :=
        List.Nodup.of_append_left hNd
      exact List.Nodup.of_append_right h1
    have hkey : dep.id ∈ s.availableMap.map Prod.fst :=
      List.mem_map.mpr ⟨(c.thenRequire, dep), hmem, hid.symm⟩
    have hkperm := keys_delete_perm s.availableMap dep.id hkeynd hkey
    refine ⟨fun p hp => hKeys p (mapDelete_sub _ _ p hp), ?_⟩
    refine List.Perm.nodup ?_ hNd
    refine List.Perm.trans
      (List.Perm.append_right _ (List.Perm.append_left _ hkperm)) ?_
    have e1 : (s.included.map (fun i => i.id))
        ++ (dep.id :: (mapDelete s.availableMap dep.id).map Prod.fst)
        ++ (s.removed.map (fun i => i.id))
        = ((s.included.map (fun i => i.id)) ++ [dep.id]
            ++ (mapDelete s.availableMap dep.id).map Prod.fst)
          ++ (s.removed.map (fun i => i.id)) := by
      simp [List.append_assoc]
    have e2 : ((s.included ++ [dep]).map (fun i => i.id))
        = (s.included.map (fun i => i.id)) ++ [dep.id] := by
      simp
    rw [e1, e2]
  next h5 =>
  split
  next trigger rest heq2 =>
    split
    next h6 => exact ⟨hKeys, hremove trigger rest heq2⟩
    next h6 => exact ⟨hKeys, hNd⟩
  next heq2 => exact ⟨hKeys, hNd⟩

theorem enfIdsInv_pass (budget : Int) (cs : List Constraint) (s : EnfState)
    (h : enfIdsInv s) : enfIdsInv (enfPass budget cs s) := by
  induction cs generalizing s with
  | nil => exact h
  | cons c cs ih =>
      have hfold : enfPass budget (c :: cs) s
          = enfPass budget cs (processConstraint budget s c) := by
        rw [enfPass, enfPass, List.foldl_cons]
      rw [hfold]
      exact ih _ (enfIdsInv_step budget s c h)

theorem enfIdsInv_loop (budget : Int) (cs : List Constraint) (n : Nat)
    (s : EnfState) (h : enfIdsInv s) : enfIdsInv (enfLoop budget cs n s) := by
  induction n generalizing s with
  | zero => exact h
  | succ n ih =>
      rw [enfLoop]
      by_cases hch : s.changed
      · rw [if_pos hch]
        exact ih _ (enfIdsInv_pass budget cs _ h)
      · rw [if_neg hch]
        exact h

/-- Set–list synchronisation invariant of the enforcement loop: the
`includedIds` set is duplicate-free and holds exactly the ids of the items
in the `included` array. -/
def enfSyncInv (s : EnfState) : Prop :=
  s.includedIds.Nodup ∧ ∀ k, k ∈ s.includedIds ↔ ∃ y ∈ s.included, y.id = k

theorem enfSyncInv_step (budget : Int) (s : EnfState) (c : Constraint)
    (hIds : enfIdsInv s) (hS : enfSyncInv s) :
    enfSyncInv (processConstraint budget s c) := by
  obtain ⟨hKeys, hNd⟩ := hIds
  obtain ⟨hSnd, hSync⟩ := hS
  have hIncNodup : (s.included.map (fun i => i.id)).Nodup :=
    List.Nodup.of_append_left (List.Nodup.of_append_left hNd)
  have hremove : ∀ (trigger : ContextItem) (rest : List ContextItem),
      findRemove c.ifIncluded s.included = some (trigger, rest) →
      (removeStr s.includedIds trigger.id).Nodup ∧
      ∀ k, k ∈ removeStr s.includedIds trigger.id ↔ ∃ y ∈ rest, y.id = k := by
    intro trigger rest heq
    have hperm := findRemove_perm _ _ _ heq
    have hidperm : (s.included.map (fun i => i.id)).Perm
        (trigger.id :: rest.map (fun i => i.id)) := by
      simpa using hperm.map (fun i => i.id)
    have hnotrest : ¬ trigger.id ∈ rest.map (fun i => i.id) := by
      have h2 := hidperm.nodup hIncNodup
      rw [List.nodup_cons] at h2
      exact h2.1
    refine ⟨removeStr_nodup _ _ hSnd, fun k => ?_⟩
    rw [removeStr_mem _ _ _ hSnd, hSync k]
    constructor
    · intro ⟨⟨y, hy, hyk⟩, hne⟩
      rcases List.mem_cons.mp (hperm.mem_iff.mp hy) with he | hy'
      · exfalso
        apply hne
        rw [← hyk, he]
      · exact ⟨y, hy', hyk⟩
    · intro ⟨y, hy, hyk⟩
      have hyin : y ∈ s.included := hperm.mem_iff.mpr (List.mem_cons_of_mem _ hy)
      refine ⟨⟨y, hyin, hyk⟩, fun he => ?_⟩
      apply hnotrest
      exact List.mem_map.mpr ⟨y, hy, by rw [hyk, he]⟩
  have hadd : ∀ dep : ContextItem,
      (setInsert s.includedIds dep.id).Nodup ∧
      ∀ k, k ∈ setInsert s.includedIds dep.id ↔
        ∃ y ∈ s.included ++ [dep], y.id = k := by
    intro dep
    refine ⟨setInsert_nodup _ _ hSnd, fun k => ?_⟩
    rw [setInsert_mem, hSync k]
    constructor
    · intro h
      rcases h with ⟨y, hy, hyk⟩ | he
      · exact ⟨y, List.mem_append_left _ hy, hyk⟩
      · exact ⟨dep, List.mem_append_right _ (List.mem_singleton_self dep), he.symm⟩
    · intro ⟨y, hy, hyk⟩
      rcases List.mem_append.mp hy with hy' | hy'
      · exact Or.inl ⟨y, hy', hyk⟩
      · right
        rw [← hyk, List.mem_singleton.mp hy']
  rw [processConstraint]
  split
  next => exact ⟨hSnd, hSync⟩
  next =>
  split
  next => exact ⟨hSnd, hSync⟩
  next =>
  split
  next =>
    split
    next trigger rest heq =>
      split
      next h4 => exact ⟨(hremove trigger rest heq).1, (hremove trigger rest heq).2⟩
      next h4 => exact ⟨hSnd, hSync⟩
    next => exact ⟨hSnd, hSync⟩
  next =>
  split
  next => exact ⟨hSnd, hSync⟩
  next dep heq =>
  split
  next h5 => exact ⟨(hadd dep).1, (hadd dep).2⟩
  next h5 =>
  split
  next trigger rest heq2 =>
    split
    next h6 => exact ⟨(hremove trigger rest heq2).1, (hremove trigger rest heq2).2⟩
    next h6 => exact ⟨hSnd, hSync⟩
  next heq2 => exact ⟨hSnd, hSync⟩

theorem enfSyncInv_pass (budget : Int) (cs : List Constraint) (s : EnfState)
    (hIds : enfIdsInv s) (hS : enfSyncInv s) : enfSyncInv (enfPass budget cs s) := by
  induction cs generalizing s with
  | nil => exact hS
  | cons c cs ih =>
      have hfold : enfPass budget (c :: cs) s
          = enfPass budget cs (processConstraint budget s c) := by
        rw [enfPass, enfPass, List.foldl_cons]
      rw [hfold]
      exact ih _ (enfIdsInv_step budget s c hIds) (enfSyncInv_step budget s c hIds hS)

theorem enfSyncInv_loop (budget : Int) (cs : List Constraint) (n : Nat)
    (s : EnfState) (hIds : enfIdsInv s) (hS : enfSyncInv s) :
    enfSyncInv (enfLoop budget cs n s) := by
  induction n generalizing s with
  | zero => exact hS
  | succ n ih =>
      rw [enfLoop]
      by_cases hch : s.changed
      · rw [if_pos hch]
        exact ih _ (enfIdsInv_pass budget cs _ hIds) (enfSyncInv_pass budget cs _ hIds hS)
      · rw [if_neg hch]
        exact hS

theorem enfSyncInv_init (included available : List ContextItem) :
    enfSyncInv (initEnfState included available) := by
  refine ⟨mkSet_nodup _, fun k => ?_⟩
  show k ∈ mkSet (included.map (fun i => i.id)) ↔ ∃ y ∈ included, y.id = k
  rw [mkSet_mem]
  simp [List.mem_map]

theorem buildMap_eq_of_fresh (l : List ContextItem) :
    ∀ (acc : List (String × ContextItem)),
      (∀ i ∈ l, ¬ i.id ∈ acc.map Prod.fst) → ((l.map (fun i => i.id)).Nodup) →
      l.foldl (fun m i => mapInsert m i.id i) acc
        = acc ++ l.map (fun i => (i.id, i)) := by
  induction l with
  | nil => intro acc _ _
           simp
  | cons i l ih =>
      intro acc hfresh hnd
      rw [List.foldl_cons]
      have hins : mapInsert acc i.id i = acc ++ [(i.id, i)] := by
        rw [mapInsert, if_neg]
        intro hany
        rcases List.any_eq_true.mp hany with ⟨p, hp, he⟩
        exact hfresh i (List.mem_cons_self i l)
          (List.mem_map.mpr ⟨p, hp, by simpa using he⟩)
      rw [hins]
      have hnd' : ((l.map (fun i => i.id)).Nodup) := by
        rw [List.map_cons, List.nodup_cons] at hnd
        exact hnd.2
      have hhead : ¬ i.id ∈ l.map (fun i => i.id) := by
        rw [List.map_cons, List.nodup_cons] at hnd
        exact hnd.1
      have hfresh' : ∀ j ∈ l, ¬ j.id ∈ (acc ++ [(i.id, i)]).map Prod.fst := by
        intro j hj hmem
        rw [List.map_append] at hmem
        rcases List.mem_append.mp hmem with h' | h'
        · exact hfresh j (List.mem_cons_of_mem i hj) h'
        · simp only [List.map_cons, List.map_nil, List.mem_singleton] at h'
          exact hhead (h' ▸ List.mem_map.mpr ⟨j, hj, rfl⟩)
      rw [ih (acc ++ [(i.id, i)]) hfresh' hnd']
      simp

theorem buildMap_keys_of_nodup (l : List ContextItem)
    (h : (l.map (fun i => i.id)).Nodup) :
    (buildMap l).map Prod.fst = l.map (fun i => i.id) := by
  rw [buildMap, buildMap_eq_of_fresh l [] (by simp) h]
  simp [List.map_map]

theorem enfIdsInv_init (included available : List ContextItem)
    (h0 : ((included.map (fun i => i.id))
      ++ (available.map (fun i => i.id))).Nodup) :
    enfIdsInv (initEnfState included available) := by
  have havnd : (available.map (fun i => i.id)).Nodup :=
    List.Nodup.of_append_right h0
  refine ⟨buildMap_keysMatch available, ?_⟩
  show ((included.map (fun i => i.id)) ++ ((buildMap available).map Prod.fst)
    ++ (([] : List ContextItem).map (fun i => i.id))).Nodup
  rw [buildMap_keys_of_nodup available havnd]
  simpa using h0

theorem enforceConstraints_removed_fresh (included available : List ContextItem)
    (cs : List Constraint) (budget : Int)
    (h0 : ((included.map (fun i => i.id))
      ++ (available.map (fun i => i.id))).Nodup) :
    ∀ x ∈ (enforceConstraints included available cs budget).removed,
      ¬ x.id ∈ (enforceConstraints included available cs budget).included.map
        (fun i => i.id) := by
  rw [enforceConstraints]
  by_cases hcs : cs = []
  · rw [if_pos hcs]
    intro x hx
    simp at hx
  · rw [if_neg hcs]
    have hfin := enfIdsInv_loop budget cs
      (enforceFuel included available cs) (initEnfState included available)
      (enfIdsInv_init included available h0)
    intro x hx hmem
    obtain ⟨hKeys, hNd⟩ := hfin
    have hdisj := (List.nodup_append.mp hNd).2.2
    exact hdisj (List.mem_append_left _ hmem) (List.mem_map.mpr ⟨x, hx, rfl⟩)

theorem enforceConstraints_removed_ids_nodup (included available : List ContextItem)
    (cs : List Constraint) (budget : Int)
    (h0 : ((included.map (fun i => i.id))
      ++ (available.map (fun i => i.id))).Nodup) :
    ((enforceConstraints included available cs budget).removed.map
      (fun i => i.id)).Nodup := by
  rw [enforceConstraints]
  by_cases hcs : cs = []
  · rw [if_pos hcs]
    simp
  · rw [if_neg hcs]
    have hfin := enfIdsInv_loop budget cs
      (enforceFuel included available cs) (initEnfState included available)
      (enfIdsInv_init included available h0)
    exact List.Nodup.of_append_right hfin.2

theorem enforceConstraints_no_orphan (included available : List ContextItem)
    (cs : List Constraint) (budget : Int)
    (h0 : ((included.map (fun i => i.id))
      ++ (available.map (fun i => i.id))).Nodup) :
    ∀ c ∈ cs, ∀ x ∈ (enforceConstraints included available cs budget).included,
      x.id = c.ifIncluded → x.priority ≠ Priority.required →
      ∃ y ∈ (enforceConstraints included available cs budget).included,
        y.id = c.thenRequire := by
  by_cases hcs : cs = []
  · intro c hc
    rw [hcs] at hc
    exact absurd hc (by simp)
  · intro c hc x hx hxid hxnr
    rw [enforceConstraints, if_neg hcs] at hx ⊢
    set sF := enfLoop budget cs (enforceFuel included available cs)
      (initEnfState included available) with hsF
    change x ∈ sF.included at hx
    show ∃ y ∈ sF.included, y.id = c.thenRequire
    have hch : sF.changed = false := enforce_fuel_fix included available cs budget
    have hIds : enfIdsInv sF := enfIdsInv_loop budget cs _ _
      (enfIdsInv_init included available h0)
    have hS : enfSyncInv sF := enfSyncInv_loop budget cs _ _
      (enfIdsInv_init included available h0) (enfSyncInv_init included available)
    obtain ⟨u, hu⟩ := enfLoop_result_pass budget cs
      (enforceFuel included available cs) (initEnfState included available) rfl hch
    have hpassch : (enfPass budget cs u).changed = false := by
      rw [← hu]
      exact hch
    obtain ⟨hpeq, hfixall⟩ := enfPass_fix budget cs u hpassch
    have hsFu : sF = u := hu.trans hpeq
    have hfix : processConstraint budget sF c = sF := by
      rw [hsFu]
      exact hfixall c hc
    have hin : c.ifIncluded ∈ sF.includedIds := (hS.2 c.ifIncluded).mpr ⟨x, hx, hxid⟩
    by_contra hno
    push_neg at hno
    have hnotin : c.thenRequire ∉ sF.includedIds := by
      intro hmem
      obtain ⟨y, hy, hyk⟩ := (hS.2 c.thenRequire).mp hmem
      exact hno y hy hyk
    have hIncNodup : (sF.included.map (fun i => i.id)).Nodup :=
      List.Nodup.of_append_left (List.Nodup.of_append_left hIds.2)
    by_cases hf : c.thenRequire ∈ sF.failedDeps
    · obtain ⟨p, hfr⟩ := findRemove_some_of_mem c.ifIncluded sF.included x hx hxid
      obtain ⟨t, rest⟩ := p
      have htid : t.id = c.ifIncluded := findRemove_first_id _ _ _ hfr
      by_cases htr : t.priority = Priority.required
      · have htmem : t ∈ sF.included :=
          (findRemove_perm _ _ _ hfr).mem_iff.mpr (List.mem_cons_self t rest)
        have hteq : t = x :=
          List.inj_on_of_nodup_map hIncNodup htmem hx (by rw [htid, hxid])
        rw [hteq] at htr
        exact hxnr htr
      · have hchg : (processConstraint budget sF c).changed = true := by
          simp [processConstraint, hin, hnotin, hf, hfr, htr]
        rw [hfix, hch] at hchg
        exact absurd hchg (by simp)
    · cases hmg : mapGet sF.availableMap c.thenRequire with
      | none =>
          have hchg : (processConstraint budget sF c).changed = true := by
            simp [processConstraint, hin, hnotin, hf, hmg]
          rw [hfix, hch] at hchg
          exact absurd hchg (by simp)
      | some dep =>
          by_cases hfit : sF.currentTokens + (dep.tokens : Int) ≤ budget
          · have hchg : (processConstraint budget sF c).changed = true := by
              simp [processConstraint, hin, hnotin, hf, hmg, hfit]
            rw [hfix, hch] at hchg
            exact absurd hchg (by simp)
          · obtain ⟨p, hfr⟩ := findRemove_some_of_mem c.ifIncluded sF.included x hx hxid
            obtain ⟨t, rest⟩ := p
            by_cases htr : t.priority = Priority.required
            · have hchg : (processConstraint budget sF c).changed = true := by
                simp [processConstraint, hin, hnotin, hf, hmg, hfit, hfr, htr]
              rw [hfix, hch] at hchg
              exact absurd hchg (by simp)
            · have hchg : (processConstraint budget sF c).changed = true := by
                simp [processConstraint, hin, hnotin, hf, hmg, hfit, hfr, htr]
              rw [hfix, hch] at hchg
              exact absurd hchg (by simp)

theorem processConstraint_removed_nonreq (budget : Int) (s : EnfState)
    (c : Constraint) (h : ∀ x ∈ s.removed, x.priority ≠ Priority.required) :
    ∀ x ∈ (processConstraint budget s c).removed,
      x.priority ≠ Priority.required := by
  have hremove : ∀ (trigger : ContextItem),
      ¬ trigger.priority = Priority.required →
      ∀ x ∈ s.removed ++ [trigger], x.priority ≠ Priority.required := by
    intro trigger h4 x hx
    rcases List.mem_append.mp hx with h' | h'
    · exact h x h'
    · rw [List.mem_singleton.mp h']
      exact h4
  rw [processConstraint]
  split
  next => exact h
  next =>
  split
  next => exact h
  next =>
  split
  next =>
    split
    next trigger rest heq =>
      split
      next h4 => exact hremove trigger h4
      next h4 => exact h
    next => exact h
  next =>
  split
  next => exact h
  next dep heq =>
  split
  next h5 => exact h
  next h5 =>
  split
  next trigger rest heq2 =>
    split
    next h6 => exact hremove trigger h6
    next h6 => exact h
  next heq2 => exact h

theorem enforceConstraints_removed_nonreq (included available : List ContextItem)
    (cs : List Constraint) (budget : Int) :
    ∀ x ∈ (enforceConstraints included available cs budget).removed,
      x.priority ≠ Priority.required := by
  have hpass : ∀ (s : EnfState) (cs2 : List Constraint),
      (∀ x ∈ s.removed, x.priority ≠ Priority.required) →
      ∀ x ∈ (enfPass budget cs2 s).removed, x.priority ≠ Priority.required := by
    intro s cs2
    induction cs2 generalizing s with
    | nil => intro h
             exact h
    | cons c cs2 ih =>
        intro h
        have hfold : enfPass budget (c :: cs2) s
            = enfPass budget cs2 (processConstraint budget s c) := by
          rw [enfPass, enfPass, List.foldl_cons]
        rw [hfold]
        exact ih _ (processConstraint_removed_nonreq budget s c h)
  have hloop : ∀ (n : Nat) (s : EnfState),
      (∀ x ∈ s.removed, x.priority ≠ Priority.required) →
      ∀ x ∈ (enfLoop budget cs n s).removed, x.priority ≠ Priority.required := by
    intro n
    induction n with
    | zero => intro s h
              exact h
    | succ n ih =>
        intro s h
        rw [enfLoop]
        by_cases hch : s.changed
        · rw [if_pos hch]
          exact ih _ (hpass _ cs h)
        · rw [if_neg hch]
          exact h
  rw [enforceConstraints]
  by_cases hcs : cs = []
  · rw [if_pos hcs]
    intro x hx
    simp at hx
  · rw [if_neg hcs]
    exact hloop _ _ (by simp [initEnfState])

theorem collectAndScore_truthy_congr (sources : List ContextSource)
    (q1 q2 : Option String) (h : truthy q1 = truthy q2) :
    collectAndScore sources q1 = collectAndScore sources q2 := by
  unfold collectAndScore
  rw [h]

theorem packAllItems_truthy_congr (cfg : OptimizerConfig)
    (sources : List ContextSource) (q1 q2 : Option String)
    (h : truthy q1 = truthy q2) :
    packAllItems cfg sources q1 = packAllItems cfg sources q2 := by
  unfold packAllItems
  rw [collectAndScore_truthy_congr sources q1 q2 h, h]

theorem packGreedy_truthy_congr (cfg : OptimizerConfig)
    (sources : List ContextSource) (q1 q2 : Option String)
    (h : truthy q1 = truthy q2) :
    packGreedy cfg sources q1 = packGreedy cfg sources q2 := by
  unfold packGreedy
  rw [packAllItems_truthy_congr cfg sources q1 q2 h]

theorem packAvailable_truthy_congr (cfg : OptimizerConfig)
    (sources : List ContextSource) (q1 q2 : Option String)
    (h : truthy q1 = truthy q2) :
    packAvailable cfg sources q1 = packAvailable cfg sources q2 := by
  unfold packAvailable
  rw [packGreedy_truthy_congr cfg sources q1 q2 h,
    packAllItems_truthy_congr cfg sources q1 q2 h]

theorem packEnforced_truthy_congr (cfg : OptimizerConfig)
    (sources : List ContextSource) (q1 q2 : Option String)
    (h : truthy q1 = truthy q2) :
    packEnforced cfg sources q1 = packEnforced cfg sources q2 := by
  unfold packEnforced
  rw [packGreedy_truthy_congr cfg sources q1 q2 h,
    packAvailable_truthy_congr cfg sources q1 q2 h]

theorem pack_truthy_congr (cfg : OptimizerConfig) (sources : List ContextSource)
    (q1 q2 : Option String) (h : truthy q1 = truthy q2) :
    pack cfg sources q1 = pack cfg sources q2 := by
  unfold pack
  rw [packGreedy_truthy_congr cfg sources q1 q2 h,
    packEnforced_truthy_congr cfg sources q1 q2 h]

/-! ### Claim theorems -/

/-- Claim C1: every item with priority `required` that enters the pipeline
appears in the final placed output regardless of budget — the greedy packer
includes it unconditionally, both removal sites of constraint enforcement
skip required items, and placement emits every included item. -/
theorem pack_required_in_output (cfg : OptimizerConfig)
    (sources : List ContextSource) (query : Option String) :
    ∀ i ∈ packAllItems cfg sources query, i.priority = Priority.required →
      ∃ p ∈ (pack cfg sources query).items,
        p.id = i.id ∧ p.content = i.content ∧ p.tokens = i.tokens ∧
          p.source = i.source := by
  intro i hi hp
  have h1 : i ∈ (packGreedy cfg sources query).included :=
    greedyPack_keeps_required _ _ i hi hp
  have h2 : i ∈ (packEnforced cfg sources query).included :=
    enforceConstraints_keeps_required _ _ _ _ i h1 hp
  have h3 := applyPlacement_mem (packEnforced cfg sources query).included i h2
  exact h3

/-- Witness for C1 at a concrete one-source registration whose single item
is required. -/
theorem pack_required_in_output_witness :
    (exReqScored ∈ packAllItems exCfg exSources none ∧
      exReqScored.priority = Priority.required) ∧
    (∃ p ∈ (pack exCfg exSources none).items,
      p.id = exReqScored.id ∧ p.content = exReqScored.content ∧
        p.tokens = exReqScored.tokens ∧ p.source = exReqScored.source) :=
  ⟨⟨by rw [show packAllItems exCfg exSources none = [exReqScored] from rfl]
       exact List.mem_cons_self _ _, rfl⟩,
    pack_required_in_output exCfg exSources none exReqScored
      (by rw [show packAllItems exCfg exSources none = [exReqScored] from rfl]
          exact List.mem_cons_self _ _) rfl⟩

/-- Claim C2: for constraints `A requires B` and `B requires C` with `A`
included and `B`, `C` in the available pool (hence non-required dependency
`B`, as the pool holds packer-dropped items): if the budget admits all
three, all three end up included and exactly `B` and `C` are reported as
added; if the budget fits `A` and `B` but not `C`, neither `B` nor `A`
(when `A` is non-required) remains included when enforcement finishes. -/
theorem enforce_transitive_chain (a b c : ContextItem) (budget : Int)
    (hab : a.id ≠ b.id) (hac : a.id ≠ c.id) (hbc : b.id ≠ c.id)
    (hbp : b.priority ≠ Priority.required) :
    ((a.tokens : Int) + b.tokens + c.tokens ≤ budget →
      (enforceConstraints [a] [b, c]
          [{ ifIncluded := a.id, thenRequire := b.id },
           { ifIncluded := b.id, thenRequire := c.id }] budget).included = [a, b, c] ∧
      (enforceConstraints [a] [b, c]
          [{ ifIncluded := a.id, thenRequire := b.id },
           { ifIncluded := b.id, thenRequire := c.id }] budget).added = [b, c]) ∧
    (a.priority ≠ Priority.required →
      (a.tokens : Int) + b.tokens ≤ budget →
      ¬ (a.tokens : Int) + b.tokens + c.tokens ≤ budget →
      (enforceConstraints [a] [b, c]
          [{ ifIncluded := a.id, thenRequire := b.id },
           { ifIncluded := b.id, thenRequire := c.id }] budget).included = []) := by
  have hba := Ne.symm hab
  have hca := Ne.symm hac
  have hcb := Ne.symm hbc
  constructor
  · intro h1
    have hfit1 : (a.tokens : Int) + (b.tokens : Int) ≤ budget := by
      have : (0 : Int) ≤ (c.tokens : Int) := Int.natCast_nonneg _
      linarith
    have hfit2 : (a.tokens : Int) + (b.tokens : Int) + (c.tokens : Int) ≤ budget := h1
    constructor
    · simp [enforceConstraints, enforceFuel, initEnfState, mkSet, setInsert, buildMap,
        mapInsert, sumTokens, enfLoop, enfPass, processConstraint, mapGet, mapDelete,
        findRemove, removeStr, hab, hba, hac, hca, hbc, hcb, hfit1, hfit2]
    · simp [enforceConstraints, enforceFuel, initEnfState, mkSet, setInsert, buildMap,
        mapInsert, sumTokens, enfLoop, enfPass, processConstraint, mapGet, mapDelete,
        findRemove, removeStr, hab, hba, hac, hca, hbc, hcb, hfit1, hfit2]
  · intro hap hfit hnofit
    simp [enforceConstraints, enforceFuel, initEnfState, mkSet, setInsert, buildMap,
      mapInsert, sumTokens, enfLoop, enfPass, processConstraint, mapGet, mapDelete,
      findRemove, removeStr, hab, hba, hac, hca, hbc, hcb, hap, hbp, hfit, hnofit]

/-- Witness for C2 at concrete items with 40 tokens each, applying the
theorem both at budget 200 (all three fit) and at budget 100 (`C` does not
fit after `A` and `B`). -/
theorem enforce_transitive_chain_witness :
    (exA.id ≠ exB.id ∧ exA.id ≠ exC.id ∧ exB.id ≠ exC.id ∧
      exB.priority ≠ Priority.required ∧ exA.priority ≠ Priority.required ∧
      (exA.tokens : Int) + exB.tokens + exC.tokens ≤ 200 ∧
      (exA.tokens : Int) + exB.tokens ≤ 100 ∧
      ¬ (exA.tokens : Int) + exB.tokens + exC.tokens ≤ 100) ∧
    ((enforceConstraints [exA] [exB, exC]
        [{ ifIncluded := exA.id, thenRequire := exB.id },
         { ifIncluded := exB.id, thenRequire := exC.id }] 200).included
        = [exA, exB, exC] ∧
      (enforceConstraints [exA] [exB, exC]
        [{ ifIncluded := exA.id, thenRequire := exB.id },
         { ifIncluded := exB.id, thenRequire := exC.id }] 200).added = [exB, exC]) ∧
    (enforceConstraints [exA] [exB, exC]
        [{ ifIncluded := exA.id, thenRequire := exB.id },
         { ifIncluded := exB.id, thenRequire := exC.id }] 100).included = [] :=
  ⟨⟨by decide, by decide, by decide, by decide, by decide, by decide, by decide,
    by decide⟩,
    (enforce_transitive_chain exA exB exC 200 (by decide) (by decide) (by decide)
      (by decide)).1 (by decide),
    (enforce_transitive_chain exA exB exC 100 (by decide) (by decide) (by decide)
      (by decide)).2 (by decide) (by decide) (by decide)⟩

/-- Claim C3: the `while (changed)` fixed-point loop of `enforceConstraints`
terminates on every finite input: with the computable fuel
`enforceFuel` (one more than a bound on the number of changing passes, each
of which removes an included item, moves an item out of the available map,
or freshly marks a dependency failed), the loop reaches a state with
`changed = false`, and any further fuel leaves the result unchanged. -/
theorem enforceConstraints_terminates (included available : List ContextItem)
    (cs : List Constraint) (budget : Int) :
    (enfLoop budget cs (enforceFuel included available cs)
        (initEnfState included available)).changed = false ∧
    ∀ k, enfLoop budget cs (enforceFuel included available cs + k)
          (initEnfState included available)
        = enfLoop budget cs (enforceFuel included available cs)
          (initEnfState included available) := by
  have hfix := enforce_fuel_fix included available cs budget
  exact ⟨hfix, fun k => enfLoop_stable budget cs _ k _ hfix⟩

/-- Claim C6: `applyPlacement` outputs exactly the non-query
position-`beginning` items first in index-ascending order (tagged
beginning), then the even-ranked floating items in descending-score order
(tagged beginning), then the odd-ranked floating items reversed (tagged
middle), then the position-`end` items in index-ascending order (tagged
end), and finally the query-source items (tagged end); each input item
appears exactly once in the output (the output ids are a permutation of the
input ids), and the stated sort orders hold. -/
theorem applyPlacement_order (items : List ContextItem) :
    (applyPlacement items =
      (sortCmp cmpIndexAsc (items.filter pinStartP)).map (toPacked Placement.beginning)
      ++ (altSplit (sortCmp cmpScoreDesc (items.filter floatP))).1.map
          (toPacked Placement.beginning)
      ++ (altSplit (sortCmp cmpScoreDesc (items.filter floatP))).2.reverse.map
          (toPacked Placement.middle)
      ++ (sortCmp cmpIndexAsc (items.filter pinEndP)).map (toPacked Placement.ending)
      ++ (items.filter queryP).map (toPacked Placement.ending)) ∧
    ((applyPlacement items).map (fun p => p.id)).Perm (items.map (fun i => i.id)) ∧
    (sortCmp cmpIndexAsc (items.filter pinStartP)).Pairwise
      (fun a b => a.index ≤ b.index) ∧
    (sortCmp cmpIndexAsc (items.filter pinEndP)).Pairwise
      (fun a b => a.index ≤ b.index) ∧
    (sortCmp cmpScoreDesc (items.filter floatP)).Pairwise
      (fun a b => b.score ≤ a.score) := by
  have hidx1 : ∀ a b : ContextItem, cmpIndexAsc a b < 0 → a.index ≤ b.index := by
    intro a b h
    rw [cmpIndexAsc] at h
    omega
  have hidx2 : ∀ a b : ContextItem, ¬ cmpIndexAsc a b < 0 → b.index ≤ a.index := by
    intro a b h
    rw [cmpIndexAsc] at h
    omega
  have hidxT : Transitive (fun a b : ContextItem => a.index ≤ b.index) := by
    intro a b c h1 h2
    exact le_trans h1 h2
  have hsc1 : ∀ a b : ContextItem, cmpScoreDesc a b < 0 → b.score ≤ a.score := by
    intro a b h
    rw [cmpScoreDesc] at h
    by_cases hlt : b.score < a.score
    · exact le_of_lt hlt
    · rw [if_neg hlt] at h
      by_cases hgt : a.score < b.score
      · rw [if_pos hgt] at h
        norm_num at h
      · rw [if_neg hgt] at h
        norm_num at h
  have hsc2 : ∀ a b : ContextItem, ¬ cmpScoreDesc a b < 0 → a.score ≤ b.score := by
    intro a b h
    rw [cmpScoreDesc] at h
    by_cases hlt : b.score < a.score
    · rw [if_pos hlt] at h
      norm_num at h
    · exact le_of_not_lt hlt
  have hscT : Transitive (fun a b : ContextItem => b.score ≤ a.score) := by
    intro a b c h1 h2
    exact le_trans h2 h1
  exact ⟨applyPlacement_concat items, applyPlacement_ids_perm items,
    sortCmp_pairwise _ cmpIndexAsc hidxT hidx1 hidx2 _,
    sortCmp_pairwise _ cmpIndexAsc hidxT hidx1 hidx2 _,
    sortCmp_pairwise _ cmpScoreDesc hscT hsc1 hsc2 _⟩

/-- Claim C10: packing with the empty-string query behaves exactly like
packing with no query — both the query-item append in `pack` and the
custom-scorer guard in `collectAndScore` test the query by truthiness, and
`''` is falsy — so the two calls produce identical results. -/
theorem pack_empty_query_eq_no_query (cfg : OptimizerConfig)
    (sources : List ContextSource) :
    pack cfg sources (some "") = pack cfg sources none :=
  pack_truthy_congr cfg sources (some "") none rfl

/-- Claim C7: `pack` never mutates the registered sources — every stored
item is cloned (`{...item}`, src/index.ts line 279) before the scoring
mutations, so in the state-passing embedding the post-call sources map is
the pre-call map — and therefore packing `q2` after packing `q1` yields
exactly the result (in particular the per-item scores) of a fresh
`pack q2` against the same registrations. -/
theorem pack_pure_across_calls (cfg : OptimizerConfig) (st : List ContextSource)
    (q1 q2 : Option String) :
    (packWithState cfg st q1).1 = st ∧
    (packWithState cfg ((packWithState cfg st q1).1) q2).2
      = (packWithState cfg st q2).2 :=
  ⟨rfl, rfl⟩

/-- Claim C9: `estimateTokens` returns a non-negative integer (its codomain
is `Nat`), returns `0` for the empty string, and for nonempty text of length
`len` returns a value between `⌈len/4⌉` and `⌈len/3⌉` inclusive — the
chars-per-token divisor is clamped to `[3, 4]`. -/
theorem estimateTokens_contract (s : String) :
    estimateTokens "" = 0 ∧
    (s ≠ "" →
      Int.ceil ((s.length : ℚ) / 4) ≤ (estimateTokens s : ℤ) ∧
      (estimateTokens s : ℤ) ≤ Int.ceil ((s.length : ℚ) / 3)) := by
  refine ⟨rfl, fun h => ?_⟩
  have hlen : 0 < s.length := string_length_pos_of_ne_empty s h
  rw [estimateTokens, if_neg h]
  set L : ℚ := (s.length : ℚ) with hL
  set st : ℚ := ((s.data.filter isStructural).length : ℚ) with hst
  set cpt : ℚ := max 3 (4 - st / L * 5) with hcpt
  have hLpos : 0 < L := by
    rw [hL]; exact_mod_cast hlen
  have hst0 : 0 ≤ st := by rw [hst]; positivity
  have h3 : (3 : ℚ) ≤ cpt := le_max_left _ _
  have hcpt0 : 0 < cpt := lt_of_lt_of_le (by norm_num) h3
  have h4 : cpt ≤ 4 := by
    rw [hcpt]
    refine max_le (by norm_num) ?_
    have : 0 ≤ st / L * 5 := by positivity
    linarith
  have hnn : 0 ≤ Int.ceil (L / cpt) := Int.ceil_nonneg (by positivity)
  have hcast : ((Int.ceil (L / cpt)).toNat : ℤ) = Int.ceil (L / cpt) :=
    Int.toNat_of_nonneg hnn
  constructor
  · rw [hcast]
    refine Int.ceil_le_ceil ?_
    have h4' : (0 : ℚ) < 4 := by norm_num
    rw [div_le_div_iff₀ h4' hcpt0]
    nlinarith
  · rw [hcast]
    refine Int.ceil_le_ceil ?_
    have h3' : (0 : ℚ) < 3 := by norm_num
    rw [div_le_div_iff₀ hcpt0 h3']
    nlinarith

/-- Claim C4: an unsatisfiable dependency constraint never raises an
exception (`pack` is a total function), and each non-required trigger whose
dependency cannot be satisfied is removed from the included set: when
enforcement finishes (a full pass without change), every constraint whose
non-required trigger is still included has its dependency included too, so
no non-required trigger with an unmet dependency survives; every trigger
the enforcement removes is non-required; the removed items appear exactly
once each in the result's dropped list with reason
`"constraint dependency unavailable"` (those entries are exactly the
removed items, in order, and the removed ids are duplicate-free); and no
removed item's id appears in the placed output.  The hypothesis is the
pipeline's id-uniqueness of the items entering a pack call. -/
theorem pack_constraint_drops (cfg : OptimizerConfig) (sources : List ContextSource)
    (query : Option String)
    (h : ((packAllItems cfg sources query).map (fun i => i.id)).Nodup) :
    (∀ c ∈ collectConstraints sources,
      ∀ x ∈ (packEnforced cfg sources query).included,
        x.id = c.ifIncluded → x.priority ≠ Priority.required →
        ∃ y ∈ (packEnforced cfg sources query).included,
          y.id = c.thenRequire) ∧
    (∀ x ∈ (packEnforced cfg sources query).removed,
      x.priority ≠ Priority.required) ∧
    ((pack cfg sources query).dropped.filter
        (fun d => d.reason = "constraint dependency unavailable")
      = (packEnforced cfg sources query).removed.map mkConstraintDropped) ∧
    (((packEnforced cfg sources query).removed.map (fun i => i.id)).Nodup) ∧
    (∀ x ∈ (packEnforced cfg sources query).removed,
      ∀ p ∈ (pack cfg sources query).items, ¬ p.id = x.id) := by
  have h0 : (((packGreedy cfg sources query).included.map (fun i => i.id))
      ++ ((packAvailable cfg sources query).map (fun i => i.id))).Nodup := by
    rw [packAvailable_ids]
    exact ((greedyPack_ids_perm (packAllItems cfg sources query)
      (packBudget cfg)).symm).nodup h
  refine ⟨?_, ?_, ?_, ?_, ?_⟩
  · rw [packEnforced]
    exact enforceConstraints_no_orphan _ _ _ _ h0
  · rw [packEnforced]
    exact enforceConstraints_removed_nonreq _ _ _ _
  · have hdropped : (pack cfg sources query).dropped
        = (packGreedy cfg sources query).dropped.filter
            (fun d => ¬ d.id ∈ (packEnforced cfg sources query).added.map
              (fun i => i.id))
          ++ (packEnforced cfg sources query).removed.map mkConstraintDropped := rfl
    rw [hdropped, List.filter_append]
    have h1 : ((packGreedy cfg sources query).dropped.filter
        (fun d => ¬ d.id ∈ (packEnforced cfg sources query).added.map
          (fun i => i.id))).filter
        (fun d => d.reason = "constraint dependency unavailable") = [] := by
      rw [List.filter_eq_nil_iff]
      intro d hd
      have hmem : d ∈ (packGreedy cfg sources query).dropped :=
        List.mem_of_mem_filter hd
      have hreason : d.reason = "budget exhausted" :=
        greedyPack_dropped_reason _ _ d hmem
      simp [hreason]
    have h2 : ((packEnforced cfg sources query).removed.map
        mkConstraintDropped).filter
        (fun d => d.reason = "constraint dependency unavailable")
        = (packEnforced cfg sources query).removed.map mkConstraintDropped := by
      rw [List.filter_eq_self]
      intro d hd
      rcases List.mem_map.mp hd with ⟨x, _, he⟩
      rw [← he]
      simp [mkConstraintDropped]
    rw [h1, h2, List.nil_append]
  · rw [packEnforced]
    exact enforceConstraints_removed_ids_nodup _ _ _ _ h0
  · intro x hx p hp hpe
    have hfresh : ¬ x.id ∈ (packEnforced cfg sources query).included.map
        (fun i => i.id) := by
      rw [packEnforced] at hx ⊢
      exact enforceConstraints_removed_fresh _ _ _ _ h0 x hx
    have hpin : p.id ∈ (applyPlacement
        (packEnforced cfg sources query).included).map (fun q => q.id) := by
      have : p ∈ applyPlacement (packEnforced cfg sources query).included := hp
      exact List.mem_map.mpr ⟨p, this, rfl⟩
    have := (applyPlacement_ids_perm
      (packEnforced cfg sources query).included).mem_iff.mp hpin
    rw [hpe] at this
    exact hfresh this

/-- Witness for C4 at a concrete registration whose single non-required item
declares a dependency on an id no source provides.  The appended concrete
equations show the scenario is not vacuous: the trigger is included by the
greedy packer, and enforcement removes it (final included empty, removed
and reported exactly once). -/
theorem pack_constraint_drops_witness :
    ((packAllItems exCfg exSources2 none).map (fun i => i.id)).Nodup ∧
    ((∀ c ∈ collectConstraints exSources2,
        ∀ x ∈ (packEnforced exCfg exSources2 none).included,
          x.id = c.ifIncluded → x.priority ≠ Priority.required →
          ∃ y ∈ (packEnforced exCfg exSources2 none).included,
            y.id = c.thenRequire) ∧
      (∀ x ∈ (packEnforced exCfg exSources2 none).removed,
        x.priority ≠ Priority.required) ∧
      ((pack exCfg exSources2 none).dropped.filter
          (fun d => d.reason = "constraint dependency unavailable")
        = (packEnforced exCfg exSources2 none).removed.map mkConstraintDropped) ∧
      (((packEnforced exCfg exSources2 none).removed.map (fun i => i.id)).Nodup) ∧
      (∀ x ∈ (packEnforced exCfg exSources2 none).removed,
        ∀ p ∈ (pack exCfg exSources2 none).items, ¬ p.id = x.id)) ∧
    (packGreedy exCfg exSources2 none).included.map (fun i => i.id) = ["s_0"] ∧
    (packEnforced exCfg exSources2 none).included.map (fun i => i.id) = [] ∧
    (packEnforced exCfg exSources2 none).removed.map (fun i => i.id) = ["s_0"] ∧
    (pack exCfg exSources2 none).dropped.map (fun d => (d.id, d.reason))
      = [("s_0", "constraint dependency unavailable")] :=
  ⟨by decide, pack_constraint_drops exCfg exSources2 none (by decide),
    by decide, by decide, by decide, by decide⟩

/-- Claim C5: with role-tagged items, a new turn begins at each `'user'`
message and a leading run of non-initiator messages forms turn 0, so
`[assistant, user, assistant]` yields exactly the two turns `[assistant]`
and `[user, assistant]`; and when no item carries a role, grouping returns
the flat item list unchanged. -/
theorem groupIntoTurns_turn_structure (src : String) (opts : AddOptions)
    (i1 i2 i3 : ContextItem) (items : List ContextItem)
    (h1 : i1.role = some "assistant") (h2 : i2.role = some "user")
    (h3 : i3.role = some "assistant") :
    (splitTurns [i1, i2, i3] = [[i1], [i2, i3]] ∧
      groupIntoTurns src [i1, i2, i3] opts
        = [mkTurn src opts 0 [i1], mkTurn src opts 1 [i2, i3]]) ∧
    ((∀ i ∈ items, i.role = none) → groupIntoTurns src items opts = items) := by
  have hsplit : splitTurns [i1, i2, i3] = [[i1], [i2, i3]] := by
    simp [splitTurns, h1, h2, h3]
  refine ⟨⟨hsplit, ?_⟩, fun hr => ?_⟩
  · rw [groupIntoTurns, if_pos (by simp [h1]), hsplit]
    simp [List.enum]
  · rw [groupIntoTurns, if_neg]
    intro hany
    rw [List.any_eq_true] at hany
    obtain ⟨i, hi, hsome⟩ := hany
    rw [hr i hi] at hsome
    simp at hsome

/-- Witness for C5 at concrete messages (roles assistant/user/assistant and
a role-less singleton). -/
theorem groupIntoTurns_turn_structure_witness :
    (exMsgA.role = some "assistant" ∧ exMsgU.role = some "user" ∧
      exMsgA2.role = some "assistant" ∧ (∀ i ∈ [exPlain], i.role = none)) ∧
    (splitTurns [exMsgA, exMsgU, exMsgA2] = [[exMsgA], [exMsgU, exMsgA2]] ∧
      groupIntoTurns "h" [exMsgA, exMsgU, exMsgA2] exTurnOpts
        = [mkTurn "h" exTurnOpts 0 [exMsgA], mkTurn "h" exTurnOpts 1 [exMsgU, exMsgA2]]) ∧
    groupIntoTurns "h" [exPlain] exTurnOpts = [exPlain] :=
  ⟨⟨rfl, rfl, rfl, by simp [exPlain]⟩,
    (groupIntoTurns_turn_structure "h" exTurnOpts exMsgA exMsgU exMsgA2 [exPlain]
      rfl rfl rfl).1,
    (groupIntoTurns_turn_structure "h" exTurnOpts exMsgA exMsgU exMsgA2 [exPlain]
      rfl rfl rfl).2 (by simp [exPlain])⟩

/-- Counterexample for C8 as stated: a turn's `content` is not the plain
concatenation of its members' contents — the source joins them with a
newline separator (`join('\n')`), so the turn over contents `"a"`, `"b"`
has content `"a\nb"`, not `"ab"`. -/
theorem groupIntoTurns_content_not_concat :
    (groupIntoTurns "h" [exMsgU, exMsgA] exTurnOpts).map (fun i => i.content)
      ≠ [exMsgU.content ++ exMsgA.content] := by
  decide

/-- Claim C8 (amended): every turn produced by grouping has `tokens` equal
to the sum of its members' token counts, `content` equal to its members'
contents joined in order with a newline separator, `value` equal to the
ordered array of the members' payloads, and no role field. -/
theorem groupIntoTurns_aggregates (src : String) (opts : AddOptions)
    (items : List ContextItem) (h : items.any (fun i => i.role.isSome) = true) :
    ∀ t ∈ groupIntoTurns src items opts, ∃ g ∈ splitTurns items,
      t.tokens = (g.map (fun i => i.tokens)).sum ∧
      t.content = String.intercalate "\n" (g.map (fun i => i.content)) ∧
      t.value = Value.arr (g.map (fun i => i.value)) ∧
      t.role = none := by
  intro t ht
  rw [groupIntoTurns, if_pos h] at ht
  obtain ⟨p, hp, rfl⟩ := List.mem_map.mp ht
  have hmem : p.2 ∈ splitTurns items := by
    have := List.mem_enum_iff_getElem?.mp hp
    exact List.mem_iff_getElem?.mpr ⟨p.1, this⟩
  exact ⟨p.2, hmem, rfl, rfl, rfl, rfl⟩

/-- Witness for C8 at a concrete two-message history. -/
theorem groupIntoTurns_aggregates_witness :
    ([exMsgU, exMsgA].any (fun i => i.role.isSome) = true) ∧
    (∀ t ∈ groupIntoTurns "h" [exMsgU, exMsgA] exTurnOpts,
      ∃ g ∈ splitTurns [exMsgU, exMsgA],
        t.tokens = (g.map (fun i => i.tokens)).sum ∧
        t.content = String.intercalate "\n" (g.map (fun i => i.content)) ∧
        t.value = Value.arr (g.map (fun i => i.value)) ∧
        t.role = none) :=
  ⟨by decide, groupIntoTurns_aggregates "h" exTurnOpts [exMsgU, exMsgA] (by decide)⟩

/-- Witness for C9 at the concrete nonempty input `"ab"`. -/
theorem estimateTokens_contract_witness :
    ("ab" : String) ≠ "" ∧
    (Int.ceil ((("ab" : String).length : ℚ) / 4) ≤ (estimateTokens "ab" : ℤ) ∧
      (estimateTokens "ab" : ℤ) ≤ Int.ceil ((("ab" : String).length : ℚ) / 3)) :=
  ⟨by decide, (estimateTokens_contract "ab").2 (by decide)⟩

end Snug
